import Mathlib

/-!
Verification of the dynamic value reference model of
`include/dds/core/xtypes/DynamicData.hpp` (Fast-RTPS xtypes).

The header implements three layers over one in-memory instance:
`ReadableDynamicDataRef` (read view: a `DynamicType` reference plus a raw
address), `WritableDynamicDataRef` (mutation), and `DynamicData` (owning
value).  All lifecycle and addressing work is delegated to the external
type-descriptor hierarchy (`DynamicType`, `StructType`, `SequenceType`,
`CollectionType`), which is not part of the file under verification; those
collaborator operations are modelled here from the specification's §6
contract, while the view-layer functions are translated directly from the
source.

Memory is a flat store of cells indexed by `Nat` addresses.  A primitive or
string instance occupies one cell; a sequence instance occupies one header
cell pointing at an out-of-line element buffer; a structure instance is laid
out at declared member offsets inside its region.  Allocation is modelled by
a monotone frontier `Heap.next`: `new uint8_t[n]` hands out the region
starting at the frontier.
-/

/-- Modelled from the spec: one cell of instance memory.  `undef` stands for
unconstructed or destroyed storage (reading it is a contract violation in the
source); the other constructors are the backing representations the external
type descriptors manage: a primitive scalar, a string object, and a sequence
header holding the buffer base address and the current element count. -/
inductive Cell where
  | undef
  | primCell (v : Int)
  | strCell (s : String)
  | seqCell (base len : Nat)
deriving DecidableEq

/-- Instance memory: a flat store of cells addressed by naturals
(modelling `uint8_t*` addresses). -/
def Mem : Type := Nat → Cell

/-- A heap is instance memory together with the allocation frontier:
addresses `≥ next` are unallocated.  `new uint8_t[n]` returns `next` and
advances the frontier. -/
structure Heap where
  mem : Mem
  next : Nat

/-- Single-cell store update. -/
def writeCell (m : Mem) (a : Nat) (c : Cell) : Mem :=
  fun p => if p = a then c else m p

/-- Modelled from the spec: the run-time type descriptor (`DynamicType`).
Primitive, string and sequence kinds are direct; a structure type is encoded
as its member list, one `memberCons name offset type` cell per declared
member in declaration order (`memberNil` ends the list and also denotes the
empty structure). -/
inductive DynamicType where
  | primitiveType
  | stringType
  | sequenceType (content : DynamicType) (bound : Nat)
  | memberNil
  | memberCons (name : String) (offset : Nat) (mtype : DynamicType) (rest : DynamicType)
deriving DecidableEq

/-- Deep (logical) content of one instance, produced by reading memory
through a type descriptor.  Structure and sequence contents are encoded as
cons chains mirroring the member-list encoding of `DynamicType`. -/
inductive Value where
  | undefV
  | primV (v : Int)
  | strV (s : String)
  | structNilV
  | structConsV (field rest : Value)
  | seqNilV
  | seqConsV (elem rest : Value)
deriving DecidableEq

/-- The kind reported by `DynamicType::kind()` (restricted to the kinds the
claims exercise; arrays are not modelled, `is_collection_type` means
sequence here). -/
inductive TypeKind where
  | primitiveKind
  | stringKind
  | structureKind
  | sequenceKind
deriving DecidableEq

def kind : DynamicType → TypeKind
  | .primitiveType => .primitiveKind
  | .stringType => .stringKind
  | .sequenceType _ _ => .sequenceKind
  | .memberNil => .structureKind
  | .memberCons _ _ _ _ => .structureKind

def is_primitive_type (t : DynamicType) : Bool := kind t == .primitiveKind

def is_collection_type (t : DynamicType) : Bool := kind t == .sequenceKind

/-- Modelled from the spec: `CollectionType::content_type()`.  Identity on
non-collections (never consulted there). -/
def content_type : DynamicType → DynamicType
  | .sequenceType c _ => c
  | t => t

/-- Modelled from the spec: `memory_size()` — bytes (cells) needed for one
instance.  Primitive, string and sequence instances occupy one cell; a
structure spans its members at their declared offsets (at least one cell). -/
def memory_size : DynamicType → Nat
  | .primitiveType => 1
  | .stringType => 1
  | .sequenceType _ _ => 1
  | .memberNil => 1
  | .memberCons _ off mt rest => max (off + memory_size mt) (memory_size rest)

/-- Modelled from the spec: `StructType::member(name)` — the first declared
member with the given name, as `(offset, type)`. -/
def findMember : DynamicType → String → Option (Nat × DynamicType)
  | .memberCons n off mt rest, nm => if n = nm then some (off, mt) else findMember rest nm
  | _, _ => none

/-- Modelled from the spec: `StructType::has_member(name)`. -/
def has_member (t : DynamicType) (nm : String) : Bool :=
  (findMember t nm).isSome

/-- Reads the elements of a sequence buffer: `readOne` reads one element,
`es` is the element size, elements sit at `base + i * es`. -/
def readElems (readOne : Nat → Value) (es base : Nat) : Nat → Nat → Value
  | _, 0 => Value.seqNilV
  | i, Nat.succ k => Value.seqConsV (readOne (base + i * es)) (readElems readOne es base (i + 1) k)

/-- Deep read of one instance through its type descriptor.  This is the
observation function used to state content preservation: it materialises the
logical content the descriptor-mediated operations maintain. -/
def readTree : DynamicType → Mem → Nat → Value
  | .primitiveType, m, a => match m a with | .primCell v => .primV v | _ => .undefV
  | .stringType, m, a => match m a with | .strCell s => .strV s | _ => .undefV
  | .sequenceType c _, m, a =>
      match m a with
      | .seqCell base len => readElems (fun p => readTree c m p) (memory_size c) base 0 len
      | _ => .undefV
  | .memberNil, _, _ => .structNilV
  | .memberCons _ off mt rest, m, a =>
      .structConsV (readTree mt m (a + off)) (readTree rest m a)

/-- Number of elements in a sequence-content chain. -/
def chainLen : Value → Nat
  | .seqConsV _ rest => chainLen rest + 1
  | _ => 0

/-- Writes the elements of a sequence-content chain into a buffer, element
`i` at `base + i * es`, in index order. -/
def writeElems (writeOne : Heap → Nat → Value → Heap) (es base : Nat) :
    Nat → Heap → Value → Heap
  | i, h, Value.seqConsV e rest =>
      writeElems writeOne es base (i + 1) (writeOne h (base + i * es) e) rest
  | _, h, _ => h

/-- Deep write of logical content into an instance through its type
descriptor.  Structure members are written in declaration order; a sequence
allocates a fresh element buffer at the frontier and stores its header.
Content that does not match the type kind leaves the destination
unconstructed. -/
def writeTree : DynamicType → Heap → Nat → Value → Heap
  | .primitiveType, h, a, v =>
      ⟨writeCell h.mem a (match v with | .primV x => .primCell x | _ => .undef), h.next⟩
  | .stringType, h, a, v =>
      ⟨writeCell h.mem a (match v with | .strV s => .strCell s | _ => .undef), h.next⟩
  | .sequenceType c _, h, a, v =>
      match v with
      | .seqNilV | .seqConsV _ _ =>
          let n := chainLen v
          let base := h.next
          let h1 : Heap := ⟨h.mem, h.next + n * memory_size c⟩
          let h2 := writeElems (fun hh p e => writeTree c hh p e) (memory_size c) base 0 h1 v
          ⟨writeCell h2.mem a (.seqCell base n), h2.next⟩
      | _ => ⟨writeCell h.mem a .undef, h.next⟩
  | .memberNil, h, _, _ => h
  | .memberCons _ off mt rest, h, a, v =>
      match v with
      | .structConsV f vr => writeTree rest (writeTree mt h (a + off) f) a vr
      | _ => h

/-- Modelled from the spec: `construct_instance(addr)` — default-constructs
one instance in place: zero primitive, empty string, empty sequence (no
buffer), members recursively. -/
def construct_instance : DynamicType → Mem → Nat → Mem
  | .primitiveType, m, a => writeCell m a (.primCell 0)
  | .stringType, m, a => writeCell m a (.strCell "")
  | .sequenceType _ _, m, a => writeCell m a (.seqCell 0 0)
  | .memberNil, m, _ => m
  | .memberCons _ off mt rest, m, a => construct_instance rest (construct_instance mt m (a + off)) a

/-- Destroys the elements of a sequence buffer in index order. -/
def destroyElems (destroyOne : Mem → Nat → Mem) (es base : Nat) : Nat → Nat → Mem → Mem
  | _, 0, m => m
  | i, Nat.succ k, m => destroyElems destroyOne es base (i + 1) k (destroyOne m (base + i * es))

/-- Modelled from the spec: `destroy_instance(addr)` — releases whatever
nested resources the kind owns.  A primitive is trivially destructible (its
cell keeps its bytes); destroying a string or a sequence frees the owned
resource, leaving the cell unconstructed; structure members are destroyed
recursively. -/
def destroy_instance : DynamicType → Mem → Nat → Mem
  | .primitiveType, m, _ => m
  | .stringType, m, a => writeCell m a .undef
  | .sequenceType c _, m, a =>
      match m a with
      | .seqCell base len =>
          writeCell (destroyElems (fun mm p => destroy_instance c mm p) (memory_size c) base 0 len m) a .undef
      | _ => writeCell m a .undef
  | .memberNil, m, _ => m
  | .memberCons _ off mt rest, m, a => destroy_instance rest (destroy_instance mt m (a + off)) a

/-- Modelled from the spec: `copy_instance(dst, src)` — deep copy of the
source instance's content into the destination, through the descriptor
(never a raw byte copy). -/
def copy_instance (t : DynamicType) (h : Heap) (dst src : Nat) : Heap :=
  writeTree t h dst (readTree t h.mem src)

/-- Modelled from the spec: `move_instance(dst, src)` — transfers the
logical content to the destination; the moved-from instance remains
independently destructible (the spec leaves its exact content open; the
model resets it to the default-constructed state). -/
def move_instance (t : DynamicType) (h : Heap) (dst src : Nat) : Heap :=
  let h1 := copy_instance t h dst src
  ⟨construct_instance t h1.mem src, h1.next⟩

/-- Compares the elements of two sequence buffers pointwise. -/
def compareElems (cmp : Nat → Nat → Bool) (es b1 b2 : Nat) : Nat → Nat → Bool
  | _, 0 => true
  | i, Nat.succ k => cmp (b1 + i * es) (b2 + i * es) && compareElems cmp es b1 b2 (i + 1) k

/-- Modelled from the spec: `compare_instance(a, b)` — deep structural
equality of the two instances, interpreted through this (one) descriptor:
cells of the wrong backing kind never compare equal. -/
def compare_instance : DynamicType → Mem → Nat → Nat → Bool
  | .primitiveType, m, a, b =>
      match m a, m b with | .primCell x, .primCell y => x == y | _, _ => false
  | .stringType, m, a, b =>
      match m a, m b with | .strCell x, .strCell y => x == y | _, _ => false
  | .sequenceType c _, m, a, b =>
      match m a, m b with
      | .seqCell ba la, .seqCell bb lb =>
          la == lb && compareElems (fun p q => compare_instance c m p q) (memory_size c) ba bb 0 la
      | _, _ => false
  | .memberNil, _, _, _ => true
  | .memberCons _ off mt rest, m, a, b =>
      compare_instance mt m (a + off) (b + off) && compare_instance rest m a b

/-- Modelled from the spec: `CollectionType::get_instance_at(addr, index)` —
address of element `index`, inside the sequence's element buffer. -/
def get_instance_at (c : DynamicType) (m : Mem) (a i : Nat) : Nat :=
  match m a with
  | .seqCell base _ => base + i * memory_size c
  | _ => 0

/-- Modelled from the spec: `CollectionType::get_instance_size(addr)` —
current element count of the collection instance. -/
def get_instance_size (m : Mem) (a : Nat) : Nat :=
  match m a with
  | .seqCell _ len => len
  | _ => 0

/-- Copies a range of elements between two buffers (used by sequence
growth), element `i` from `bold + i * es` to `bnew + i * es`. -/
def copyElemRange (cp : Heap → Nat → Nat → Heap) (es bnew bold : Nat) : Nat → Nat → Heap → Heap
  | _, 0, h => h
  | i, Nat.succ k, h => copyElemRange cp es bnew bold (i + 1) k (cp h (bnew + i * es) (bold + i * es))

/-- Modelled from the spec: `SequenceType::push_instance(addr, value)` —
appends one element, returning the heap and the new element's address, or
`none` (the C++ null result) on exhaustion: the sequence is at its bound.
Growth reallocates: a fresh buffer is taken at the frontier, existing
elements are copied over, and the new element is deep-copied in last. -/
def push_instance (c : DynamicType) (bound : Nat) (h : Heap) (a : Nat) (v : Value) :
    Option (Heap × Nat) :=
  match h.mem a with
  | .seqCell base len =>
      if len < bound then
        let es := memory_size c
        let nbase := h.next
        let h1 : Heap := ⟨h.mem, h.next + (len + 1) * es⟩
        let h2 := copyElemRange (fun hh d s => copy_instance c hh d s) es nbase base 0 len h1
        let h3 := writeTree c h2 (nbase + len * es) v
        some (⟨writeCell h3.mem a (.seqCell nbase (len + 1)), h3.next⟩, nbase + len * es)
      else none
  | _ => none

/-- Modelled from the spec: one node of the instance tree handed to the
traversal visitor (`Instanceable::InstanceNode`): the node's type, its
instance address, and its depth.  (The parent back-reference and access
descriptor play no role in the traversal-shape claims.) -/
structure InstanceNode where
  ntype : DynamicType
  ninstance : Nat
  deep : Nat
deriving DecidableEq

/-- Collects the subtrees of the elements of a sequence instance, in index
order; `child` produces the children of one element. -/
def elemNodes (child : Nat → List InstanceNode) (c : DynamicType) (es base d : Nat) :
    Nat → Nat → List InstanceNode
  | _, 0 => []
  | i, Nat.succ k =>
      (⟨c, base + i * es, d⟩ :: child (base + i * es)) ++ elemNodes child c es base d (i + 1) k

/-- Modelled from the spec: the strict descendants of one instance in
document order — structure members in declaration order, collection elements
in index order, each followed depth-first by its own descendants. -/
def instance_children : DynamicType → Mem → Nat → Nat → List InstanceNode
  | .primitiveType, _, _, _ => []
  | .stringType, _, _, _ => []
  | .sequenceType c _, m, a, d =>
      match m a with
      | .seqCell base len =>
          elemNodes (fun p => instance_children c m p (d + 1)) c (memory_size c) base (d + 1) 0 len
      | _ => []
  | .memberNil, _, _, _ => []
  | .memberCons _ off mt rest, m, a, d =>
      (⟨mt, a + off, d + 1⟩ :: instance_children mt m (a + off) (d + 1))
        ++ instance_children rest m a d

/-- Modelled from the spec: `for_each_instance(root, visitor)` — the full
synchronous walk: the root node first, then every reachable sub-instance in
document order, depth-first.  The model returns the exact node sequence the
visitor is invoked on. -/
def for_each_instance (t : DynamicType) (m : Mem) (a : Nat) : List InstanceNode :=
  ⟨t, a, 0⟩ :: instance_children t m a 0

/-- Counts the elements' node totals of a sequence instance. -/
def countElems (cnt : Nat → Nat) (es base : Nat) : Nat → Nat → Nat
  | _, 0 => 0
  | i, Nat.succ k => cnt (base + i * es) + countElems cnt es base (i + 1) k

/-- Number of reachable sub-instances of one instance, the root included:
one per leaf primitive/string plus one per intermediate structure or
collection.  (On the member-list encoding, `memberNil` carries the
enclosing structure's own node.) -/
def node_count : DynamicType → Mem → Nat → Nat
  | .primitiveType, _, _ => 1
  | .stringType, _, _ => 1
  | .sequenceType c _, m, a =>
      1 + (match m a with
           | .seqCell base len => countElems (fun p => node_count c m p) (memory_size c) base 0 len
           | _ => 0)
  | .memberNil, _, _ => 1
  | .memberCons _ off mt rest, m, a => node_count mt m (a + off) + node_count rest m a

/-- Collects the footprints of the elements of a sequence buffer. -/
def footElems (fp : Nat → List Nat) (es base : Nat) : Nat → Nat → List Nat
  | _, 0 => []
  | i, Nat.succ k => fp (base + i * es) ++ footElems fp es base (i + 1) k

/-- The set of cell addresses an instance's content occupies: its leaf and
header cells, plus (through sequence headers) the cells of its element
buffers.  Every descriptor operation on the instance reads and writes only
these cells (and, for writes, freshly allocated ones). -/
def footprint : DynamicType → Mem → Nat → List Nat
  | .primitiveType, _, a => [a]
  | .stringType, _, a => [a]
  | .sequenceType c _, m, a =>
      a :: (match m a with
            | .seqCell base len => footElems (fun p => footprint c m p) (memory_size c) base 0 len
            | _ => [])
  | .memberNil, _, _ => []
  | .memberCons _ off mt rest, m, a => footprint mt m (a + off) ++ footprint rest m a

/-- In-place write set of an instance: the cells inside the member extents
of its region (element buffers excluded).  All descriptor writes that do not
allocate land here. -/
def inWritesB : DynamicType → Nat → Nat → Bool
  | .primitiveType, a, p => p == a
  | .stringType, a, p => p == a
  | .sequenceType _ _, a, p => p == a
  | .memberNil, _, _ => false
  | .memberCons _ off mt rest, a, p => inWritesB mt (a + off) p || inWritesB rest a p

/-- Extent disjointness of two members: `[o1, o1+s1)` and `[o2, o2+s2)` do
not overlap. -/
def extDisjoint (o1 s1 o2 s2 : Nat) : Bool :=
  decide (o1 + s1 ≤ o2) || decide (o2 + s2 ≤ o1)

/-- The member at `(off, sz)` is extent-disjoint from every member of the
given member list. -/
def disjointFromRest (off sz : Nat) : DynamicType → Bool
  | .memberCons _ off2 mt2 rest => extDisjoint off sz off2 (memory_size mt2) && disjointFromRest off sz rest
  | _ => true

/-- Whether a type is a member-list cell (the encoding of a structure's
member list). -/
def isMemberList : DynamicType → Bool
  | .memberNil => true
  | .memberCons _ _ _ _ => true
  | _ => false

/-- Well-formed declared layout: distinct structure members occupy disjoint
extents, member-list tails are member lists, recursively (the spec's
member-addressing invariant). -/
def wfType : DynamicType → Bool
  | .primitiveType => true
  | .stringType => true
  | .sequenceType c _ => wfType c
  | .memberNil => true
  | .memberCons _ off mt rest =>
      disjointFromRest off (memory_size mt) rest && isMemberList rest
        && wfType mt && wfType rest

/-- Checks the elements of a sequence-content chain against the content
type. -/
def elemsMatch (f : Value → Bool) : Value → Bool
  | .seqNilV => true
  | .seqConsV e rest => f e && elemsMatch f rest
  | _ => false

/-- The logical value has exactly the shape of the type: primitives carry
scalars, strings carry text, structures carry one field per member,
sequences carry element chains of the content type. -/
def valueMatches : DynamicType → Value → Bool
  | .primitiveType, .primV _ => true
  | .stringType, .strV _ => true
  | .sequenceType c _, v => elemsMatch (fun e => valueMatches c e) v
  | .memberNil, .structNilV => true
  | .memberCons _ _ mt rest, .structConsV f vr => valueMatches mt f && valueMatches rest vr
  | _, _ => false

/-! ## The view layer, translated from `DynamicData.hpp` -/

/-- `ReadableDynamicDataRef` (DynamicData.hpp:38-156): a non-owning
reference, `type_` plus the instance address `instance_`. -/
structure ReadableDynamicDataRef where
  type_ : DynamicType
  instance_ : Nat
deriving DecidableEq

/-- `operator==` (DynamicData.hpp:43-47): delegates to
`type_.compare_instance(instance_, other.instance_)` — the left operand's
descriptor compares both addresses; `other.type_` is never consulted. -/
def ReadableDynamicDataRef.beq (m : Mem) (r other : ReadableDynamicDataRef) : Bool :=
  compare_instance r.type_ m r.instance_ other.instance_

/-- `instance_id()` (DynamicData.hpp:56): the instance address as an opaque
identity token (`size_t(instance_)`). -/
def ReadableDynamicDataRef.instance_id (r : ReadableDynamicDataRef) : Nat :=
  r.instance_

/-- The assertion of `value<T>()` (DynamicData.hpp:61-62):
`type_.is_primitive_type() || type_.kind() == TypeKind::STRING_TYPE`. -/
def ReadableDynamicDataRef.value_assert (r : ReadableDynamicDataRef) : Bool :=
  is_primitive_type r.type_ || (kind r.type_ == .stringKind)

/-- `value<T>()` (DynamicData.hpp:58-64): reinterprets the instance cell as
the scalar/string it holds. -/
def ReadableDynamicDataRef.value (m : Mem) (r : ReadableDynamicDataRef) : Value :=
  match m r.instance_ with
  | .primCell v => .primV v
  | .strCell s => .strV s
  | _ => .undefV

/-- The assertions of `operator[](member_name)` (DynamicData.hpp:75-77):
structure kind, and the member exists. -/
def ReadableDynamicDataRef.member_assert (r : ReadableDynamicDataRef) (nm : String) : Bool :=
  (kind r.type_ == .structureKind) && has_member r.type_ nm

/-- `operator[](member_name)` (DynamicData.hpp:72-80): the child view
`(member.type(), instance_ + member.offset())`. -/
def ReadableDynamicDataRef.member (r : ReadableDynamicDataRef) (nm : String) :
    ReadableDynamicDataRef :=
  match findMember r.type_ nm with
  | some (off, mt) => ⟨mt, r.instance_ + off⟩
  | none => r

/-- `size()` (DynamicData.hpp:90-95): delegates to
`collection.get_instance_size(instance_)`. -/
def ReadableDynamicDataRef.size (m : Mem) (r : ReadableDynamicDataRef) : Nat :=
  get_instance_size m r.instance_

/-- `operator[](index)` (DynamicData.hpp:82-88): the child view
`(collection.content_type(), collection.get_instance_at(instance_, index))`. -/
def ReadableDynamicDataRef.atIndex (m : Mem) (r : ReadableDynamicDataRef) (i : Nat) :
    ReadableDynamicDataRef :=
  ⟨content_type r.type_, get_instance_at (content_type r.type_) m r.instance_ i⟩

/-- The assertions of `as_vector<T>()` (DynamicData.hpp:101-103), exactly as
written in the source: `type_.is_collection_type()`, then
`type_.is_primitive_type() || collection.content_type().kind() ==
TypeKind::STRING_TYPE` — note the second conjunct queries the collection
type itself, not its content type, for primitiveness. -/
def ReadableDynamicDataRef.as_vector_assert (r : ReadableDynamicDataRef) : Bool :=
  is_collection_type r.type_ &&
    (is_primitive_type r.type_ || (kind (content_type r.type_) == .stringKind))

/-- Reading one leaf element cell, as `as_vector`'s element copy does. -/
def readLeafCell : Cell → Value
  | .primCell v => .primV v
  | .strCell s => .strV s
  | _ => .undefV

/-- `as_vector<T>()` (DynamicData.hpp:97-108): copies the first `size()`
contiguous `T`-sized elements out, starting at the address of element 0. -/
def ReadableDynamicDataRef.as_vector (m : Mem) (r : ReadableDynamicDataRef) : List Value :=
  let location := get_instance_at (content_type r.type_) m r.instance_ 0
  let n := get_instance_size m r.instance_
  (List.range n).map (fun i => readLeafCell (m (location + i)))

/-- `ReadableNode` (DynamicData.hpp:110-132): the visitor-facing wrapper
around one `InstanceNode`. -/
structure ReadableNode where
  internal_ : InstanceNode
deriving DecidableEq

/-- `for_each(visitor)` (DynamicData.hpp:134-141): builds the root node and
delegates the walk to `type_.for_each_instance`, wrapping each visited node
in a `ReadableNode`.  The model returns the sequence of nodes the visitor is
invoked on, in invocation order. -/
def ReadableDynamicDataRef.for_each (m : Mem) (r : ReadableDynamicDataRef) : List ReadableNode :=
  (for_each_instance r.type_ m r.instance_).map ReadableNode.mk

/-- `WritableDynamicDataRef::operator=` (DynamicData.hpp:162-168):
`type_.destroy_instance(instance_); type_.copy_instance(instance_,
instance(other))` — the target is destroyed first, then the source (read
after that destruction) is copied in.  There is no self-assignment guard. -/
def WritableDynamicDataRef.assign (h : Heap) (dst src : ReadableDynamicDataRef) : Heap :=
  let m1 := destroy_instance dst.type_ h.mem dst.instance_
  copy_instance dst.type_ ⟨m1, h.next⟩ dst.instance_ src.instance_

/-- The assertion of the `value(const T&)` setter (DynamicData.hpp:210-211). -/
def WritableDynamicDataRef.value_set_assert (r : ReadableDynamicDataRef) : Bool :=
  r.value_assert

/-- `value(const T&)` (DynamicData.hpp:207-214): destroys the current
content, then copies the scalar/string in from the caller's value. -/
def WritableDynamicDataRef.value_set (h : Heap) (r : ReadableDynamicDataRef) (v : Value) : Heap :=
  let m1 := destroy_instance r.type_ h.mem r.instance_
  writeTree r.type_ ⟨m1, h.next⟩ r.instance_ v

/-- `push(const T&)` (DynamicData.hpp:223-231): asserts sequence kind, calls
`sequence.push_instance(instance_, &value)`, asserts the returned element
address is non-null, and returns `*this` (the C++ return value carries no
failure information).  The returned `Bool` records whether the assertions
held: it is `false` exactly when `push_instance` reported exhaustion (or the
kind assertion failed), the case the source turns into a fatal
`assert(element != nullptr)`. -/
def WritableDynamicDataRef.push (h : Heap) (r : ReadableDynamicDataRef) (v : Value) :
    Heap × Bool :=
  match r.type_ with
  | .sequenceType c bound =>
      match push_instance c bound h r.instance_ v with
      | some (h2, _) => (h2, true)
      | none => (h, false)
  | _ => (h, false)

/-- `DynamicData(const DynamicType&)` (DynamicData.hpp:274-279): allocates
`memory_size()` fresh cells and runs `construct_instance`; returns the new
heap and the owned instance address. -/
def DynamicData.create (h : Heap) (t : DynamicType) : Heap × Nat :=
  let a := h.next
  let h1 : Heap := ⟨h.mem, h.next + memory_size t⟩
  (⟨construct_instance t h1.mem a, h1.next⟩, a)

/-- `DynamicData(const DynamicData&)` (DynamicData.hpp:286-290): allocates a
fresh buffer and runs `copy_instance` from the source instance. -/
def DynamicData.copyCtor (h : Heap) (t : DynamicType) (src : Nat) : Heap × Nat :=
  let a := h.next
  let h1 : Heap := ⟨h.mem, h.next + memory_size t⟩
  (copy_instance t h1 a src, a)

/-- `DynamicData(DynamicData&&)` (DynamicData.hpp:292-296): allocates a
fresh buffer and runs `move_instance` from the source instance. -/
def DynamicData.moveCtor (h : Heap) (t : DynamicType) (src : Nat) : Heap × Nat :=
  let a := h.next
  let h1 : Heap := ⟨h.mem, h.next + memory_size t⟩
  (move_instance t h1 a src, a)

/-- `~DynamicData` (DynamicData.hpp:306-310): runs `destroy_instance` on the
owned instance, then releases the buffer (deallocation itself leaves the
store unchanged in the model). -/
def DynamicData.destruct (h : Heap) (t : DynamicType) (a : Nat) : Heap :=
  ⟨destroy_instance t h.mem a, h.next⟩

/-- The cells inside a declared instance region. -/
def inRegion (t : DynamicType) (a p : Nat) : Prop :=
  a ≤ p ∧ p < a + memory_size t

/-- The memory of the C1 scenario: a single string instance holding "hello". -/
def selfAssignMem : Mem := writeCell (fun _ => Cell.undef) 0 (Cell.strCell "hello")

def selfAssignHeap : Heap := ⟨selfAssignMem, 1⟩

def selfAssignRef : ReadableDynamicDataRef := ⟨DynamicType.stringType, 0⟩

/-- The C3/C9 exhaustion scenario: a sequence of bound 2 already holding two
elements. -/
def fullSeqMem : Mem := writeCell (fun _ => Cell.undef) 0 (Cell.seqCell 10 2)

def fullSeqHeap : Heap := ⟨fullSeqMem, 12⟩

def fullSeqRef : ReadableDynamicDataRef :=
  ⟨DynamicType.sequenceType DynamicType.primitiveType 2, 0⟩

/-- The C10 asymmetry scenario: an empty-structure view and a primitive view
over two cells holding different scalars. -/
def eqMem : Mem := fun p =>
  if p = 0 then Cell.primCell 1 else if p = 1 then Cell.primCell 2 else Cell.undef

def eqLeft : ReadableDynamicDataRef := ⟨DynamicType.memberNil, 0⟩

def eqRight : ReadableDynamicDataRef := ⟨DynamicType.primitiveType, 1⟩

/-- The C7 witness layout: `Point { x : int32 @0, y : int32 @1 }`. -/
def pointType : DynamicType :=
  DynamicType.memberCons "x" 0 DynamicType.primitiveType
    (DynamicType.memberCons "y" 1 DynamicType.primitiveType DynamicType.memberNil)

/-- The C8 witness scenario: a two-element primitive sequence, and the same
memory modified at an address outside the instance's footprint. -/
def walkMem : Mem :=
  writeCell (writeCell (writeCell (fun _ => Cell.undef) 0 (Cell.seqCell 10 2))
    10 (Cell.primCell 3)) 11 (Cell.primCell 4)

def walkMem2 : Mem := writeCell walkMem 50 (Cell.primCell 99)

def walkRef : ReadableDynamicDataRef := ⟨DynamicType.sequenceType DynamicType.primitiveType 9, 0⟩

/-- Element `j` of a sequence-content chain. -/
def chainElem : Nat → Value → Value
  | 0, .seqConsV e _ => e
  | Nat.succ j, .seqConsV _ rest => chainElem j rest
  | _, _ => .undefV

/-- The C9 witness scenario: a one-element primitive sequence below its
bound. -/
def pushMem : Mem :=
  writeCell (writeCell (fun _ => Cell.undef) 0 (Cell.seqCell 10 1)) 10 (Cell.primCell 3)

def pushHeap : Heap := ⟨pushMem, 11⟩

/-- The C4 witness scenario type: a structure containing a sequence — one
member "s" at offset 0 whose type is a bounded primitive sequence. -/
def structSeqType : DynamicType :=
  DynamicType.memberCons "s" 0 (DynamicType.sequenceType DynamicType.primitiveType 5)
    DynamicType.memberNil

/-- An instance whose content is fully inside its own region: its sequences
hold no elements (the default-constructed state `construct_instance`
establishes), so destruction touches no out-of-line buffer. -/
def containedB : DynamicType → Mem → Nat → Bool
  | .primitiveType, _, _ => true
  | .stringType, _, _ => true
  | .sequenceType _ _, m, a =>
      match m a with
      | .seqCell _ len => len == 0
      | _ => true
  | .memberNil, _, _ => true
  | .memberCons _ off mt rest, m, a => containedB mt m (a + off) && containedB rest m a

/-! ## Basic store lemmas -/

lemma writeCell_self (m : Mem) (a : Nat) (c : Cell) : writeCell m a c a = c := by
  simp [writeCell]

lemma writeCell_other (m : Mem) (a p : Nat) (c : Cell) (h : p ≠ a) :
    writeCell m a c p = m p := by
  simp [writeCell, h]

lemma memory_size_pos : ∀ t : DynamicType, 0 < memory_size t := by
  intro t
  induction t with
  | primitiveType => simp [memory_size]
  | stringType => simp [memory_size]
  | sequenceType c b ih => simp [memory_size]
  | memberNil => simp [memory_size]
  | memberCons n off mt rest ih1 ih2 => simp only [memory_size]; omega

lemma inRegion_of_inWrites :
    ∀ (t : DynamicType) (a p : Nat), inWritesB t a p = true → inRegion t a p := by
  intro t
  induction t with
  | primitiveType =>
      intro a p hp
      simp [inWritesB] at hp
      subst hp
      simp [inRegion, memory_size]
  | stringType =>
      intro a p hp
      simp [inWritesB] at hp
      subst hp
      simp [inRegion, memory_size]
  | sequenceType c b ih =>
      intro a p hp
      simp [inWritesB] at hp
      subst hp
      simp [inRegion, memory_size]
  | memberNil =>
      intro a p hp
      simp [inWritesB] at hp
  | memberCons n off mt rest ih1 ih2 =>
      intro a p hp
      simp only [inWritesB, Bool.or_eq_true] at hp
      rcases hp with hp | hp
      · have h1 := ih1 (a + off) p hp
        simp only [inRegion, memory_size] at h1 ⊢
        omega
      · have h2 := ih2 a p hp
        simp only [inRegion, memory_size] at h2 ⊢
        omega

/-! ## C1, C2, C3, C6, C10 -/

/-- C1: the claim that whole-view self-assignment is safe (content unchanged,
a no-op) fails on the code: `operator=` destroys the target and then copies
from the source, with no aliasing guard, so for a string view assigned to
itself the original content "hello" is destroyed before it is read and the
view ends up holding destroyed (unconstructed) content instead. -/
theorem self_assignment_destroys_content :
    ReadableDynamicDataRef.value selfAssignHeap.mem selfAssignRef = Value.strV "hello" ∧
    ReadableDynamicDataRef.value
        (WritableDynamicDataRef.assign selfAssignHeap selfAssignRef selfAssignRef).mem
        selfAssignRef = Value.undefV := by
  constructor
  · decide
  · decide

/-- C2: the claim that `as_vector<T>()`'s kind assertion passes for a
collection of primitive elements fails on the code: the source asserts
`type_.is_primitive_type()` on the collection type itself rather than on its
content type, so for a sequence of primitives — a collection, whose content
type is primitive — the assertion evaluates to false. -/
theorem as_vector_assert_fails_for_primitive_elements :
    is_collection_type (DynamicType.sequenceType DynamicType.primitiveType 4) = true ∧
    is_primitive_type (content_type (DynamicType.sequenceType DynamicType.primitiveType 4)) = true ∧
    ReadableDynamicDataRef.as_vector_assert
        ⟨DynamicType.sequenceType DynamicType.primitiveType 4, 0⟩ = false := by
  refine ⟨rfl, rfl, rfl⟩

/-- C3 counterexample: on a sequence at its bound, `push`'s append failure is
not reported to the caller as a checkable operational failure result: the
source turns the null element address into the fatal
`assert(element != nullptr)` (the assertion flag is false) and returns the
view itself over the unchanged heap, carrying no failure information. -/
theorem push_exhaustion_not_checkable :
    (WritableDynamicDataRef.push fullSeqHeap fullSeqRef (Value.primV 5)).2 = false ∧
    (WritableDynamicDataRef.push fullSeqHeap fullSeqRef (Value.primV 5)).1 = fullSeqHeap := by
  exact ⟨rfl, rfl⟩

/-- C3 (amended): for every sequence-typed Write View at its bound, `push`
detects the append failure through the fatal assertion
`assert(element != nullptr)` — a contract check, not a returned failure
value — and hands back the unchanged state; the C++ function returns `*this`
regardless, so no checkable failure result reaches the caller. -/
theorem push_exhaustion_fires_assertion (h : Heap) (c : DynamicType) (bound a : Nat)
    (v : Value) (base : Nat) (hm : h.mem a = Cell.seqCell base bound) :
    WritableDynamicDataRef.push h ⟨DynamicType.sequenceType c bound, a⟩ v = (h, false) := by
  simp [WritableDynamicDataRef.push, push_instance, hm]

theorem push_exhaustion_fires_assertion_witness :
    fullSeqHeap.mem 0 = Cell.seqCell 10 2 ∧
    WritableDynamicDataRef.push fullSeqHeap fullSeqRef (Value.primV 5) = (fullSeqHeap, false) :=
  ⟨by decide,
   push_exhaustion_fires_assertion fullSeqHeap DynamicType.primitiveType 2 0
     (Value.primV 5) 10 (by decide)⟩

/-- C6: for every Write View over a primitive-bearing (primitive or
string-kinded) instance — the setter's own assertion — and every value of
the matching shape, running the `value` setter and then the `value` getter
returns exactly the value that was set. -/
theorem value_write_read_roundtrip (h : Heap) (r : ReadableDynamicDataRef) (v : Value)
    (hk : r.value_assert = true) (hv : valueMatches r.type_ v = true) :
    ReadableDynamicDataRef.value (WritableDynamicDataRef.value_set h r v).mem r = v := by
  obtain ⟨t, a⟩ := r
  cases t with
  | primitiveType =>
      cases v <;> simp_all [ReadableDynamicDataRef.value, WritableDynamicDataRef.value_set,
        destroy_instance, writeTree, valueMatches, writeCell_self]
  | stringType =>
      cases v <;> simp_all [ReadableDynamicDataRef.value, WritableDynamicDataRef.value_set,
        destroy_instance, writeTree, valueMatches, writeCell_self]
  | sequenceType c b =>
      simp [ReadableDynamicDataRef.value_assert, is_primitive_type, kind] at hk
  | memberNil =>
      simp [ReadableDynamicDataRef.value_assert, is_primitive_type, kind] at hk
  | memberCons n off mt rest =>
      simp [ReadableDynamicDataRef.value_assert, is_primitive_type, kind] at hk

theorem value_write_read_roundtrip_witness :
    ReadableDynamicDataRef.value_assert ⟨DynamicType.primitiveType, 0⟩ = true ∧
    valueMatches DynamicType.primitiveType (Value.primV 42) = true ∧
    ReadableDynamicDataRef.value
        (WritableDynamicDataRef.value_set ⟨fun _ => Cell.undef, 1⟩
          ⟨DynamicType.primitiveType, 0⟩ (Value.primV 42)).mem
        ⟨DynamicType.primitiveType, 0⟩ = Value.primV 42 :=
  ⟨by decide, by decide,
   value_write_read_roundtrip ⟨fun _ => Cell.undef, 1⟩ ⟨DynamicType.primitiveType, 0⟩
     (Value.primV 42) (by decide) (by decide)⟩

/-- C10: `operator==` is computed by the left operand's descriptor alone:
it equals `compare_instance` of the left type on the two addresses, is
unchanged under any replacement of the right operand's descriptor, and on
views with different descriptors it need not be symmetric (witnessed by an
empty-structure view versus a primitive view). -/
theorem equality_uses_left_descriptor_only :
    (∀ (m : Mem) (a b : ReadableDynamicDataRef),
        ReadableDynamicDataRef.beq m a b = compare_instance a.type_ m a.instance_ b.instance_) ∧
    (∀ (m : Mem) (a b : ReadableDynamicDataRef) (t2 : DynamicType),
        ReadableDynamicDataRef.beq m a ⟨t2, b.instance_⟩ = ReadableDynamicDataRef.beq m a b) ∧
    ReadableDynamicDataRef.beq eqMem eqLeft eqRight = true ∧
    ReadableDynamicDataRef.beq eqMem eqRight eqLeft = false := by
  refine ⟨fun m a b => rfl, fun m a b t2 => rfl, by decide, by decide⟩

/-! ## C7: structure member addressing -/

lemma find_extent_disjoint :
    ∀ (rest : DynamicType) (off sz o2 : Nat) (t2 : DynamicType) (nm : String),
      disjointFromRest off sz rest = true →
      findMember rest nm = some (o2, t2) →
      extDisjoint off sz o2 (memory_size t2) = true := by
  intro rest
  induction rest with
  | primitiveType => intro off sz o2 t2 nm hd hf; simp [findMember] at hf
  | stringType => intro off sz o2 t2 nm hd hf; simp [findMember] at hf
  | sequenceType c b ih => intro off sz o2 t2 nm hd hf; simp [findMember] at hf
  | memberNil => intro off sz o2 t2 nm hd hf; simp [findMember] at hf
  | memberCons n noff nmt nrest ih1 ih2 =>
      intro off sz o2 t2 nm hd hf
      simp only [disjointFromRest, Bool.and_eq_true] at hd
      simp only [findMember] at hf
      by_cases hn : n = nm
      · simp [hn] at hf
        obtain ⟨h1, h2⟩ := hf
        subst h1; subst h2
        exact hd.1
      · simp [hn] at hf
        exact ih2 off sz o2 t2 nm hd.2 hf

lemma find_regions_disjoint :
    ∀ (ms : DynamicType) (n1 n2 : String) (o1 o2 : Nat) (t1 t2 : DynamicType),
      wfType ms = true →
      findMember ms n1 = some (o1, t1) →
      findMember ms n2 = some (o2, t2) →
      n1 ≠ n2 →
      extDisjoint o1 (memory_size t1) o2 (memory_size t2) = true := by
  intro ms
  induction ms with
  | primitiveType => intro n1 n2 o1 o2 t1 t2 hw h1 h2 hne; simp [findMember] at h1
  | stringType => intro n1 n2 o1 o2 t1 t2 hw h1 h2 hne; simp [findMember] at h1
  | sequenceType c b ih => intro n1 n2 o1 o2 t1 t2 hw h1 h2 hne; simp [findMember] at h1
  | memberNil => intro n1 n2 o1 o2 t1 t2 hw h1 h2 hne; simp [findMember] at h1
  | memberCons n noff nmt nrest ih1 ih2 =>
      intro n1 n2 o1 o2 t1 t2 hw h1 h2 hne
      simp only [wfType, Bool.and_eq_true] at hw
      simp only [findMember] at h1 h2
      by_cases e1 : n = n1
      · have e2 : ¬ n = n2 := by rw [e1]; exact hne
        rw [if_pos e1] at h1
        rw [if_neg e2] at h2
        have ho : noff = o1 ∧ nmt = t1 := by
          have := Option.some.inj h1
          exact ⟨congrArg Prod.fst this, congrArg Prod.snd this⟩
        obtain ⟨ho1, ho2⟩ := ho
        subst ho1
        subst ho2
        exact find_extent_disjoint nrest _ _ _ _ n2 hw.1.1.1 h2
      · by_cases e2 : n = n2
        · rw [if_neg e1] at h1
          rw [if_pos e2] at h2
          have ho : noff = o2 ∧ nmt = t2 := by
            have := Option.some.inj h2
            exact ⟨congrArg Prod.fst this, congrArg Prod.snd this⟩
          obtain ⟨ho1, ho2⟩ := ho
          subst ho1
          subst ho2
          have hd := find_extent_disjoint nrest _ _ _ _ n1 hw.1.1.1 h1
          simp only [extDisjoint, Bool.or_eq_true, decide_eq_true_eq] at hd ⊢
          omega
        · rw [if_neg e1] at h1
          rw [if_neg e2] at h2
          exact ih2 n1 n2 o1 o2 t1 t2 hw.2 h1 h2 hne

/-- C7: for a structure-typed view, member addressing by name returns the
child view whose descriptor is the member's declared type and whose address
is the parent's address plus the declared offset; for two distinct members
the difference of the child views' `instance_id`s equals the declared offset
delta, and (for a well-formed declared layout) the two members' memory
regions do not alias. -/
theorem member_addressing_offsets (ms : DynamicType) (a : Nat)
    (n1 n2 : String) (o1 o2 : Nat) (t1 t2 : DynamicType)
    (h1 : findMember ms n1 = some (o1, t1))
    (h2 : findMember ms n2 = some (o2, t2))
    (hne : n1 ≠ n2) (hwf : wfType ms = true) :
    ReadableDynamicDataRef.member ⟨ms, a⟩ n1 = ⟨t1, a + o1⟩ ∧
    (ReadableDynamicDataRef.member ⟨ms, a⟩ n1).instance_id = a + o1 ∧
    ((ReadableDynamicDataRef.member ⟨ms, a⟩ n2).instance_id : ℤ)
        - ((ReadableDynamicDataRef.member ⟨ms, a⟩ n1).instance_id : ℤ)
        = (o2 : ℤ) - (o1 : ℤ) ∧
    ∀ p, inRegion t1 (a + o1) p → ¬ inRegion t2 (a + o2) p := by
  have hd := find_regions_disjoint ms n1 n2 o1 o2 t1 t2 hwf h1 h2 hne
  refine ⟨?_, ?_, ?_, ?_⟩
  · simp [ReadableDynamicDataRef.member, h1]
  · simp [ReadableDynamicDataRef.member, ReadableDynamicDataRef.instance_id, h1]
  · simp only [ReadableDynamicDataRef.member, ReadableDynamicDataRef.instance_id, h1, h2]
    push_cast
    ring
  · intro p hp1 hp2
    simp only [inRegion] at hp1 hp2
    simp only [extDisjoint, Bool.or_eq_true, decide_eq_true_eq] at hd
    omega

theorem member_addressing_offsets_witness :
    ReadableDynamicDataRef.member ⟨pointType, 5⟩ "x" = ⟨DynamicType.primitiveType, 5 + 0⟩ ∧
    (ReadableDynamicDataRef.member ⟨pointType, 5⟩ "x").instance_id = 5 + 0 ∧
    ((ReadableDynamicDataRef.member ⟨pointType, 5⟩ "y").instance_id : ℤ)
        - ((ReadableDynamicDataRef.member ⟨pointType, 5⟩ "x").instance_id : ℤ)
        = (1 : ℤ) - (0 : ℤ) ∧
    ∀ p, inRegion DynamicType.primitiveType (5 + 0) p →
      ¬ inRegion DynamicType.primitiveType (5 + 1) p :=
  member_addressing_offsets pointType 5 "x" "y" 0 1
    DynamicType.primitiveType DynamicType.primitiveType
    (by decide) (by decide) (by decide) (by decide)

/-! ## C8: traversal completeness and determinism -/

lemma elemNodes_count (child : Nat → List InstanceNode) (cnt : Nat → Nat)
    (c : DynamicType) (es base d : Nat)
    (hc : ∀ p, (child p).length + 1 = cnt p) :
    ∀ (k i : Nat), (elemNodes child c es base d i k).length = countElems cnt es base i k := by
  intro k
  induction k with
  | zero => intro i; simp [elemNodes, countElems]
  | succ k ih =>
      intro i
      simp only [elemNodes, countElems, List.length_append, List.length_cons]
      have h1 := hc (base + i * es)
      have h2 := ih (i + 1)
      omega

lemma instance_children_length :
    ∀ (t : DynamicType) (m : Mem) (a d : Nat),
      (instance_children t m a d).length + 1 = node_count t m a := by
  intro t
  induction t with
  | primitiveType => intro m a d; simp [instance_children, node_count]
  | stringType => intro m a d; simp [instance_children, node_count]
  | sequenceType c b ih =>
      intro m a d
      cases hm : m a with
      | seqCell base len =>
          simp only [instance_children, node_count, hm]
          rw [elemNodes_count (fun p => instance_children c m p (d + 1))
            (fun p => node_count c m p) c
            (memory_size c) base (d + 1) (fun p => ih m p (d + 1)) len 0]
          omega
      | undef => simp [instance_children, node_count, hm]
      | primCell v => simp [instance_children, node_count, hm]
      | strCell s => simp [instance_children, node_count, hm]
  | memberNil => intro m a d; simp [instance_children, node_count]
  | memberCons n off mt rest ih1 ih2 =>
      intro m a d
      simp only [instance_children, node_count, List.length_append, List.length_cons]
      have h1 := ih1 m (a + off) (d + 1)
      have h2 := ih2 m a d
      omega

lemma footElems_mem (fp : Nat → List Nat) (es base : Nat) :
    ∀ (k i j q : Nat), j < k → q ∈ fp (base + (i + j) * es) →
      q ∈ footElems fp es base i k := by
  intro k
  induction k with
  | zero => intro i j q hj _; exact absurd hj (by omega)
  | succ k ih =>
      intro i j q hj hq
      simp only [footElems, List.mem_append]
      cases j with
      | zero => left; simpa using hq
      | succ j2 =>
          right
          refine ih (i + 1) j2 q (by omega) ?_
          have e : i + 1 + j2 = i + (j2 + 1) := by omega
          rw [e]
          exact hq

lemma elemNodes_ext (child1 child2 : Nat → List InstanceNode) (c : DynamicType)
    (es base d : Nat) :
    ∀ (k i : Nat),
      (∀ j, j < k → child1 (base + (i + j) * es) = child2 (base + (i + j) * es)) →
      elemNodes child1 c es base d i k = elemNodes child2 c es base d i k := by
  intro k
  induction k with
  | zero => intro i _; rfl
  | succ k ih =>
      intro i hch
      simp only [elemNodes]
      have h0 := hch 0 (by omega)
      simp only [Nat.add_zero] at h0
      rw [h0, ih (i + 1) (fun j hj => by
        have hx := hch (j + 1) (by omega)
        have e : i + (j + 1) = i + 1 + j := by omega
        rw [e] at hx
        exact hx)]

lemma instance_children_congr :
    ∀ (t : DynamicType) (m m2 : Mem) (a d : Nat),
      (∀ p, p ∈ footprint t m a → m2 p = m p) →
      instance_children t m2 a d = instance_children t m a d := by
  intro t
  induction t with
  | primitiveType => intro m m2 a d _; rfl
  | stringType => intro m m2 a d _; rfl
  | sequenceType c b ih =>
      intro m m2 a d hfp
      have ha : m2 a = m a := hfp a (by simp [footprint])
      cases hm : m a with
      | seqCell base len =>
          rw [hm] at ha
          simp only [instance_children, ha, hm]
          apply elemNodes_ext
          intro j hj
          apply ih m m2 (base + (0 + j) * memory_size c) (d + 1)
          intro q hq
          apply hfp
          simp only [footprint, hm, List.mem_cons]
          right
          exact footElems_mem (fun p => footprint c m p) (memory_size c) base len 0 j q hj hq
      | undef => rw [hm] at ha; simp [instance_children, ha, hm]
      | primCell v => rw [hm] at ha; simp [instance_children, ha, hm]
      | strCell s => rw [hm] at ha; simp [instance_children, ha, hm]
  | memberNil => intro m m2 a d _; rfl
  | memberCons n off mt rest ih1 ih2 =>
      intro m m2 a d hfp
      simp only [instance_children]
      rw [ih1 m m2 (a + off) (d + 1)
            (fun q hq => hfp q (by simp only [footprint, List.mem_append]; exact Or.inl hq)),
          ih2 m m2 a d
            (fun q hq => hfp q (by simp only [footprint, List.mem_append]; exact Or.inr hq))]

/-- C8: `for_each` performs one full synchronous walk whose visitor-call
sequence has exactly one node per reachable sub-instance (`node_count`:
every leaf plus one node per intermediate structure or collection), begins
with the root node, and is a function of the instance content alone: on a
memory unmodified over the instance's footprint, re-invoking `for_each`
yields the identical node sequence.  Document order (declaration order,
index order, depth-first) is the order of the spec-modelled driver
`for_each_instance`. -/
theorem for_each_complete_deterministic (m : Mem) (r : ReadableDynamicDataRef) :
    (ReadableDynamicDataRef.for_each m r).length = node_count r.type_ m r.instance_ ∧
    (ReadableDynamicDataRef.for_each m r).head? = some ⟨⟨r.type_, r.instance_, 0⟩⟩ ∧
    ∀ m2 : Mem, (∀ p, p ∈ footprint r.type_ m r.instance_ → m2 p = m p) →
      ReadableDynamicDataRef.for_each m2 r = ReadableDynamicDataRef.for_each m r := by
  refine ⟨?_, rfl, ?_⟩
  · simp only [ReadableDynamicDataRef.for_each, for_each_instance, List.length_map,
      List.length_cons]
    have h1 := instance_children_length r.type_ m r.instance_ 0
    omega
  · intro m2 h2
    simp only [ReadableDynamicDataRef.for_each, for_each_instance]
    rw [instance_children_congr r.type_ m m2 r.instance_ 0 h2]

theorem for_each_complete_deterministic_witness :
    (ReadableDynamicDataRef.for_each walkMem walkRef).length
        = node_count walkRef.type_ walkMem walkRef.instance_ ∧
    ReadableDynamicDataRef.for_each walkMem2 walkRef
        = ReadableDynamicDataRef.for_each walkMem walkRef :=
  ⟨(for_each_complete_deterministic walkMem walkRef).1,
   (for_each_complete_deterministic walkMem walkRef).2.2 walkMem2 (by decide)⟩

/-! ## Frame and congruence lemmas for the descriptor operations -/

lemma member_size_le (n : String) (off : Nat) (mt rest : DynamicType) :
    off + memory_size mt ≤ memory_size (DynamicType.memberCons n off mt rest) ∧
    memory_size rest ≤ memory_size (DynamicType.memberCons n off mt rest) := by
  simp only [memory_size]
  omega

lemma writeElemsW_mono (w : Heap → Nat → Value → Heap) (es base : Nat)
    (hm : ∀ hh q e, hh.next ≤ (w hh q e).next) :
    ∀ (vs : Value) (i : Nat) (hh : Heap),
      hh.next ≤ (writeElems w es base i hh vs).next := by
  intro vs
  induction vs with
  | undefV => intro i hh; simp [writeElems]
  | primV x => intro i hh; simp [writeElems]
  | strV s => intro i hh; simp [writeElems]
  | structNilV => intro i hh; simp [writeElems]
  | structConsV f r ihf ihr => intro i hh; simp [writeElems]
  | seqNilV => intro i hh; simp [writeElems]
  | seqConsV e r ihe ihr =>
      intro i hh
      simp only [writeElems]
      exact le_trans (hm hh (base + i * es) e) (ihr (i + 1) (w hh (base + i * es) e))

lemma writeTree_next_mono :
    ∀ (t : DynamicType) (h : Heap) (a : Nat) (v : Value),
      h.next ≤ (writeTree t h a v).next := by
  intro t
  induction t with
  | primitiveType => intro h a v; simp [writeTree]
  | stringType => intro h a v; simp [writeTree]
  | sequenceType c b ih =>
      intro h a v
      cases v with
      | undefV => simp [writeTree]
      | primV x => simp [writeTree]
      | strV s => simp [writeTree]
      | structNilV => simp [writeTree]
      | structConsV f r => simp [writeTree]
      | seqNilV =>
          simp only [writeTree]
          refine le_trans ?_ (writeElemsW_mono (fun hh p e => writeTree c hh p e)
            (memory_size c) h.next (fun hh q e => ih hh q e) Value.seqNilV 0
            ⟨h.mem, h.next + chainLen Value.seqNilV * memory_size c⟩)
          simp
      | seqConsV e r =>
          simp only [writeTree]
          refine le_trans ?_ (writeElemsW_mono (fun hh p e => writeTree c hh p e)
            (memory_size c) h.next (fun hh q e => ih hh q e) (Value.seqConsV e r) 0
            ⟨h.mem, h.next + chainLen (Value.seqConsV e r) * memory_size c⟩)
          simp
  | memberNil => intro h a v; simp [writeTree]
  | memberCons n off mt rest ih1 ih2 =>
      intro h a v
      cases v with
      | structConsV f vr =>
          simp only [writeTree]
          exact le_trans (ih1 h (a + off) f) (ih2 (writeTree mt h (a + off) f) a vr)
      | undefV => simp [writeTree]
      | primV x => simp [writeTree]
      | strV s => simp [writeTree]
      | structNilV => simp [writeTree]
      | seqNilV => simp [writeTree]
      | seqConsV e r => simp [writeTree]

lemma writeElemsW_frame (w : Heap → Nat → Value → Heap) (es base p : Nat)
    (hm : ∀ hh q e, hh.next ≤ (w hh q e).next)
    (hfr : ∀ hh q e, p < hh.next → (p < q ∨ q + es ≤ p) → (w hh q e).mem p = hh.mem p) :
    ∀ (vs : Value) (i : Nat) (hh : Heap),
      p < hh.next →
      (p < base + i * es ∨ base + (i + chainLen vs) * es ≤ p) →
      (writeElems w es base i hh vs).mem p = hh.mem p := by
  intro vs
  induction vs with
  | undefV => intro i hh _ _; simp [writeElems]
  | primV x => intro i hh _ _; simp [writeElems]
  | strV s => intro i hh _ _; simp [writeElems]
  | structNilV => intro i hh _ _; simp [writeElems]
  | structConsV f r ihf ihr => intro i hh _ _; simp [writeElems]
  | seqNilV => intro i hh _ _; simp [writeElems]
  | seqConsV e r ihe ihr =>
      intro i hh hlt hside
      simp only [writeElems]
      have hs1 : (i + chainLen (Value.seqConsV e r)) * es
          = i * es + chainLen r * es + es := by
        simp only [chainLen]
        ring
      have hs2 : (i + 1) * es = i * es + es := by ring
      have hs3 : (i + 1 + chainLen r) * es = i * es + chainLen r * es + es := by ring
      have hw1 : (w hh (base + i * es) e).mem p = hh.mem p := by
        apply hfr hh (base + i * es) e hlt
        rcases hside with hl | hr
        · left; exact hl
        · right; omega
      rw [ihr (i + 1) (w hh (base + i * es) e)
            (lt_of_lt_of_le hlt (hm hh (base + i * es) e))
            (by rcases hside with hl | hr
                · left; omega
                · right; omega)]
      exact hw1

lemma writeTree_frame :
    ∀ (t : DynamicType) (h : Heap) (a : Nat) (v : Value) (p : Nat),
      p < h.next → inWritesB t a p = false →
      (writeTree t h a v).mem p = h.mem p := by
  intro t
  induction t with
  | primitiveType =>
      intro h a v p hp hw
      simp only [inWritesB, beq_eq_false_iff_ne, ne_eq] at hw
      exact writeCell_other _ _ _ _ hw
  | stringType =>
      intro h a v p hp hw
      simp only [inWritesB, beq_eq_false_iff_ne, ne_eq] at hw
      exact writeCell_other _ _ _ _ hw
  | sequenceType c b ih =>
      intro h a v p hp hw
      simp only [inWritesB, beq_eq_false_iff_ne, ne_eq] at hw
      have hfr : ∀ (hh : Heap) (q : Nat) (e : Value), p < hh.next → (p < q ∨ q + memory_size c ≤ p) →
          (writeTree c hh q e).mem p = hh.mem p := by
        intro hh q e hph hq
        apply ih hh q e p hph
        by_contra hcon
        rw [Bool.not_eq_false] at hcon
        have hr := inRegion_of_inWrites c q p hcon
        simp only [inRegion] at hr
        omega
      have helems : ∀ (vs : Value),
          (writeElems (fun hh2 p2 e2 => writeTree c hh2 p2 e2) (memory_size c) h.next 0
            ⟨h.mem, h.next + chainLen vs * memory_size c⟩ vs).mem p = h.mem p := by
        intro vs
        exact writeElemsW_frame (fun hh2 p2 e2 => writeTree c hh2 p2 e2) (memory_size c)
          h.next p (fun hh q e => writeTree_next_mono c hh q e) hfr vs 0
          ⟨h.mem, h.next + chainLen vs * memory_size c⟩ (by simp; omega)
          (Or.inl (by simp; omega))
      cases v with
      | undefV => exact writeCell_other _ _ _ _ hw
      | primV x => exact writeCell_other _ _ _ _ hw
      | strV s => exact writeCell_other _ _ _ _ hw
      | structNilV => exact writeCell_other _ _ _ _ hw
      | structConsV f r => exact writeCell_other _ _ _ _ hw
      | seqNilV =>
          simp only [writeTree]
          rw [writeCell_other _ _ _ _ hw]
          exact helems Value.seqNilV
      | seqConsV e r =>
          simp only [writeTree]
          rw [writeCell_other _ _ _ _ hw]
          exact helems (Value.seqConsV e r)
  | memberNil => intro h a v p hp hw; rfl
  | memberCons n off mt rest ih1 ih2 =>
      intro h a v p hp hw
      simp only [inWritesB, Bool.or_eq_false_iff] at hw
      cases v with
      | structConsV f vr =>
          simp only [writeTree]
          rw [ih2 (writeTree mt h (a + off) f) a vr p
                (lt_of_lt_of_le hp (writeTree_next_mono mt h (a + off) f)) hw.2]
          exact ih1 h (a + off) f p hp hw.1
      | undefV => rfl
      | primV x => rfl
      | strV s => rfl
      | structNilV => rfl
      | seqNilV => rfl
      | seqConsV e r => rfl

lemma chain_writes_disjoint :
    ∀ (rest : DynamicType), isMemberList rest = true → wfType rest = true →
      ∀ (off sz a p : Nat),
        disjointFromRest off sz rest = true →
        inWritesB rest a p = true →
        a + off ≤ p → p < a + off + sz → False := by
  intro rest
  induction rest with
  | primitiveType => intro hml; simp [isMemberList] at hml
  | stringType => intro hml; simp [isMemberList] at hml
  | sequenceType c b ih => intro hml; simp [isMemberList] at hml
  | memberNil =>
      intro _ _ off sz a p _ hw
      simp [inWritesB] at hw
  | memberCons n2 off2 mt2 rest2 ih1 ih2 =>
      intro _ hwf off sz a p hd hw hp1 hp2
      simp only [wfType, Bool.and_eq_true] at hwf
      simp only [disjointFromRest, Bool.and_eq_true] at hd
      simp only [inWritesB, Bool.or_eq_true] at hw
      rcases hw with hw | hw
      · have hr := inRegion_of_inWrites mt2 (a + off2) p hw
        simp only [inRegion] at hr
        have hd1 := hd.1
        simp only [extDisjoint, Bool.or_eq_true, decide_eq_true_eq] at hd1
        omega
      · exact ih2 hwf.1.1.2 hwf.2 off sz a p hd.2 hw hp1 hp2

lemma readElems_ext (f g : Nat → Value) (es base : Nat) :
    ∀ (k i : Nat),
      (∀ j, j < k → f (base + (i + j) * es) = g (base + (i + j) * es)) →
      readElems f es base i k = readElems g es base i k := by
  intro k
  induction k with
  | zero => intro i _; rfl
  | succ k ih =>
      intro i h
      simp only [readElems]
      have h0 := h 0 (by omega)
      simp only [Nat.add_zero] at h0
      rw [h0, ih (i + 1) (fun j hj => by
        have hx := h (j + 1) (by omega)
        have e : i + (j + 1) = i + 1 + j := by omega
        rw [e] at hx
        exact hx)]

lemma footElems_ext (f g : Nat → List Nat) (es base : Nat) :
    ∀ (k i : Nat),
      (∀ j, j < k → f (base + (i + j) * es) = g (base + (i + j) * es)) →
      footElems f es base i k = footElems g es base i k := by
  intro k
  induction k with
  | zero => intro i _; rfl
  | succ k ih =>
      intro i h
      simp only [footElems]
      have h0 := h 0 (by omega)
      simp only [Nat.add_zero] at h0
      rw [h0, ih (i + 1) (fun j hj => by
        have hx := h (j + 1) (by omega)
        have e : i + (j + 1) = i + 1 + j := by omega
        rw [e] at hx
        exact hx)]

lemma mem_footElems (fp : Nat → List Nat) (es base : Nat) :
    ∀ (k i q : Nat), q ∈ footElems fp es base i k →
      ∃ j, j < k ∧ q ∈ fp (base + (i + j) * es) := by
  intro k
  induction k with
  | zero => intro i q hq; simp [footElems] at hq
  | succ k ih =>
      intro i q hq
      simp only [footElems, List.mem_append] at hq
      rcases hq with hq | hq
      · exact ⟨0, by omega, by simpa using hq⟩
      · obtain ⟨j, hj, hjq⟩ := ih (i + 1) q hq
        refine ⟨j + 1, by omega, ?_⟩
        have e : i + (j + 1) = i + 1 + j := by omega
        rw [e]
        exact hjq

lemma footprint_congr :
    ∀ (t : DynamicType) (m m2 : Mem) (a : Nat),
      (∀ p, p ∈ footprint t m a → m2 p = m p) →
      footprint t m2 a = footprint t m a := by
  intro t
  induction t with
  | primitiveType => intro m m2 a _; rfl
  | stringType => intro m m2 a _; rfl
  | sequenceType c b ih =>
      intro m m2 a hfp
      have ha : m2 a = m a := hfp a (by simp [footprint])
      cases hm : m a with
      | seqCell base len =>
          rw [hm] at ha
          simp only [footprint, ha, hm, List.cons.injEq, true_and]
          apply footElems_ext
          intro j hj
          apply ih m m2 (base + (0 + j) * memory_size c)
          intro q hq
          apply hfp
          simp only [footprint, hm, List.mem_cons]
          right
          exact footElems_mem (fun p => footprint c m p) (memory_size c) base len 0 j q hj hq
      | undef => rw [hm] at ha; simp [footprint, ha, hm]
      | primCell x => rw [hm] at ha; simp [footprint, ha, hm]
      | strCell s => rw [hm] at ha; simp [footprint, ha, hm]
  | memberNil => intro m m2 a _; rfl
  | memberCons n off mt rest ih1 ih2 =>
      intro m m2 a hfp
      simp only [footprint]
      rw [ih1 m m2 (a + off)
            (fun q hq => hfp q (by simp only [footprint, List.mem_append]; exact Or.inl hq)),
          ih2 m m2 a
            (fun q hq => hfp q (by simp only [footprint, List.mem_append]; exact Or.inr hq))]

lemma readTree_congr :
    ∀ (t : DynamicType) (m m2 : Mem) (a : Nat),
      (∀ p, p ∈ footprint t m a → m2 p = m p) →
      readTree t m2 a = readTree t m a := by
  intro t
  induction t with
  | primitiveType =>
      intro m m2 a hfp
      have ha : m2 a = m a := hfp a (by simp [footprint])
      simp [readTree, ha]
  | stringType =>
      intro m m2 a hfp
      have ha : m2 a = m a := hfp a (by simp [footprint])
      simp [readTree, ha]
  | sequenceType c b ih =>
      intro m m2 a hfp
      have ha : m2 a = m a := hfp a (by simp [footprint])
      cases hm : m a with
      | seqCell base len =>
          rw [hm] at ha
          simp only [readTree, ha, hm]
          apply readElems_ext
          intro j hj
          apply ih m m2 (base + (0 + j) * memory_size c)
          intro q hq
          apply hfp
          simp only [footprint, hm, List.mem_cons]
          right
          exact footElems_mem (fun p => footprint c m p) (memory_size c) base len 0 j q hj hq
      | undef => rw [hm] at ha; simp [readTree, ha, hm]
      | primCell x => rw [hm] at ha; simp [readTree, ha, hm]
      | strCell s => rw [hm] at ha; simp [readTree, ha, hm]
  | memberNil => intro m m2 a _; rfl
  | memberCons n off mt rest ih1 ih2 =>
      intro m m2 a hfp
      simp only [readTree]
      rw [ih1 m m2 (a + off)
            (fun q hq => hfp q (by simp only [footprint, List.mem_append]; exact Or.inl hq)),
          ih2 m m2 a
            (fun q hq => hfp q (by simp only [footprint, List.mem_append]; exact Or.inr hq))]

/-! ## Write-then-read round trip -/

lemma writeTree_frame_slot (c : DynamicType) (p : Nat) :
    ∀ (hh : Heap) (q : Nat) (e : Value), p < hh.next → (p < q ∨ q + memory_size c ≤ p) →
      (writeTree c hh q e).mem p = hh.mem p := by
  intro hh q e hph hq
  apply writeTree_frame c hh q e p hph
  by_contra hcon
  rw [Bool.not_eq_false] at hcon
  have hr := inRegion_of_inWrites c q p hcon
  simp only [inRegion] at hr
  omega

lemma readElems_chain (f : Nat → Value) (g : Value → Bool) (es base : Nat) :
    ∀ (vs : Value) (i : Nat), elemsMatch g vs = true →
      (∀ j, j < chainLen vs → f (base + (i + j) * es) = chainElem j vs) →
      readElems f es base i (chainLen vs) = vs := by
  intro vs
  induction vs with
  | undefV => intro i hm _; simp [elemsMatch] at hm
  | primV x => intro i hm _; simp [elemsMatch] at hm
  | strV s => intro i hm _; simp [elemsMatch] at hm
  | structNilV => intro i hm _; simp [elemsMatch] at hm
  | structConsV a1 a2 ih1 ih2 => intro i hm _; simp [elemsMatch] at hm
  | seqNilV => intro i _ _; rfl
  | seqConsV e r ihe ihr =>
      intro i hm hf
      simp only [elemsMatch, Bool.and_eq_true] at hm
      simp only [chainLen, readElems]
      have h0 := hf 0 (by simp only [chainLen]; omega)
      simp only [Nat.add_zero, chainElem] at h0
      rw [h0, ihr (i + 1) hm.2 (fun j hj => by
        have hx := hf (j + 1) (by simp only [chainLen]; omega)
        have e1 : i + (j + 1) = i + 1 + j := by omega
        rw [e1] at hx
        simp only [chainElem] at hx
        exact hx)]

lemma writeElems_block (c : DynamicType) (base : Nat)
    (IH : ∀ (hh : Heap) (aa : Nat) (e : Value), valueMatches c e = true →
      aa + memory_size c ≤ hh.next →
      readTree c (writeTree c hh aa e).mem aa = e ∧
      (∀ q, q ∈ footprint c (writeTree c hh aa e).mem aa →
        inRegion c aa q ∨ (hh.next ≤ q ∧ q < (writeTree c hh aa e).next))) :
    ∀ (vs : Value) (i : Nat) (h : Heap),
      elemsMatch (fun e => valueMatches c e) vs = true →
      base + (i + chainLen vs) * memory_size c ≤ h.next →
      ∀ j, j < chainLen vs →
        readTree c
            (writeElems (fun hh p e => writeTree c hh p e) (memory_size c) base i h vs).mem
            (base + (i + j) * memory_size c) = chainElem j vs ∧
        (∀ q, q ∈ footprint c
              (writeElems (fun hh p e => writeTree c hh p e) (memory_size c) base i h vs).mem
              (base + (i + j) * memory_size c) →
          (base + (i + j) * memory_size c ≤ q
              ∧ q < base + (i + j) * memory_size c + memory_size c)
            ∨ (h.next ≤ q ∧
               q < (writeElems (fun hh p e => writeTree c hh p e)
                      (memory_size c) base i h vs).next)) := by
  intro vs
  induction vs with
  | undefV => intro i h _ _ j hj; simp [chainLen] at hj
  | primV x => intro i h _ _ j hj; simp [chainLen] at hj
  | strV s => intro i h _ _ j hj; simp [chainLen] at hj
  | structNilV => intro i h _ _ j hj; simp [chainLen] at hj
  | structConsV a1 a2 ih1 ih2 => intro i h _ _ j hj; simp [chainLen] at hj
  | seqNilV => intro i h _ _ j hj; simp [chainLen] at hj
  | seqConsV e r ihe ihr =>
      intro i h hm hreg j hj
      simp only [elemsMatch, Bool.and_eq_true] at hm
      have hcl : (i + chainLen (Value.seqConsV e r)) * memory_size c
          = i * memory_size c + chainLen r * memory_size c + memory_size c := by
        simp only [chainLen]
        ring
      have hreg1 : (base + i * memory_size c) + memory_size c ≤ h.next := by omega
      obtain ⟨hrb1, hfp1⟩ := IH h (base + i * memory_size c) e hm.1 hreg1
      have hmono1 : h.next ≤ (writeTree c h (base + i * memory_size c) e).next :=
        writeTree_next_mono c h _ e
      have hs2 : (i + 1) * memory_size c = i * memory_size c + memory_size c := by ring
      have hs3 : (i + 1 + chainLen r) * memory_size c
          = i * memory_size c + chainLen r * memory_size c + memory_size c := by ring
      have hregr : base + (i + 1 + chainLen r) * memory_size c
          ≤ (writeTree c h (base + i * memory_size c) e).next := by omega
      -- cells of element i are untouched by the writes of elements i+1, ...
      have hframe : ∀ q,
          q ∈ footprint c (writeTree c h (base + i * memory_size c) e).mem
              (base + i * memory_size c) →
          (writeElems (fun hh p e2 => writeTree c hh p e2) (memory_size c) base (i + 1)
              (writeTree c h (base + i * memory_size c) e) r).mem q
            = (writeTree c h (base + i * memory_size c) e).mem q := by
        intro q hq
        rcases hfp1 q hq with hq1 | hq1
        · simp only [inRegion] at hq1
          exact writeElemsW_frame (fun hh p e2 => writeTree c hh p e2) (memory_size c) base q
            (fun hh q2 e2 => writeTree_next_mono c hh q2 e2)
            (writeTree_frame_slot c q) r (i + 1)
            (writeTree c h (base + i * memory_size c) e)
            (by omega) (Or.inl (by omega))
        · exact writeElemsW_frame (fun hh p e2 => writeTree c hh p e2) (memory_size c) base q
            (fun hh q2 e2 => writeTree_next_mono c hh q2 e2)
            (writeTree_frame_slot c q) r (i + 1)
            (writeTree c h (base + i * memory_size c) e)
            hq1.2 (Or.inr (by omega))
      have hmonoW : (writeTree c h (base + i * memory_size c) e).next
          ≤ (writeElems (fun hh p e2 => writeTree c hh p e2) (memory_size c) base (i + 1)
              (writeTree c h (base + i * memory_size c) e) r).next :=
        writeElemsW_mono (fun hh p e2 => writeTree c hh p e2) (memory_size c) base
          (fun hh q2 e2 => writeTree_next_mono c hh q2 e2) r (i + 1)
          (writeTree c h (base + i * memory_size c) e)
      cases j with
      | zero =>
          simp only [Nat.add_zero, writeElems, chainElem]
          constructor
          · rw [readTree_congr c (writeTree c h (base + i * memory_size c) e).mem
              (writeElems (fun hh p e2 => writeTree c hh p e2) (memory_size c) base (i + 1)
                (writeTree c h (base + i * memory_size c) e) r).mem
              (base + i * memory_size c) hframe]
            exact hrb1
          · intro q hq
            rw [footprint_congr c (writeTree c h (base + i * memory_size c) e).mem
              (writeElems (fun hh p e2 => writeTree c hh p e2) (memory_size c) base (i + 1)
                (writeTree c h (base + i * memory_size c) e) r).mem
              (base + i * memory_size c) hframe] at hq
            rcases hfp1 q hq with hq1 | hq1
            · left
              simp only [inRegion] at hq1
              omega
            · right
              exact ⟨hq1.1, lt_of_lt_of_le hq1.2 hmonoW⟩
      | succ j2 =>
          have hj2 : j2 < chainLen r := by
            simp only [chainLen] at hj
            omega
          obtain ⟨hrb2, hfp2⟩ := ihr (i + 1) (writeTree c h (base + i * memory_size c) e)
            hm.2 hregr j2 hj2
          have eidx : base + (i + (j2 + 1)) * memory_size c
              = base + (i + 1 + j2) * memory_size c := by ring_nf
          simp only [writeElems, chainElem]
          rw [eidx]
          constructor
          · exact hrb2
          · intro q hq
            rcases hfp2 q hq with hq1 | hq1
            · left
              exact hq1
            · right
              exact ⟨le_trans hmono1 hq1.1, hq1.2⟩

lemma writeTree_spec :
    ∀ (t : DynamicType) (h : Heap) (a : Nat) (v : Value),
      wfType t = true → valueMatches t v = true → a + memory_size t ≤ h.next →
      readTree t (writeTree t h a v).mem a = v ∧
      (∀ q, q ∈ footprint t (writeTree t h a v).mem a →
        inRegion t a q ∨ (h.next ≤ q ∧ q < (writeTree t h a v).next)) := by
  intro t
  induction t with
  | primitiveType =>
      intro h a v _ hv _
      cases v with
      | primV x =>
          constructor
          · simp [readTree, writeTree, writeCell_self]
          · intro q hq
            simp only [writeTree, footprint, List.mem_singleton] at hq
            subst hq
            left
            simp only [inRegion, memory_size]
            omega
      | undefV => simp [valueMatches] at hv
      | strV s => simp [valueMatches] at hv
      | structNilV => simp [valueMatches] at hv
      | structConsV a1 a2 => simp [valueMatches] at hv
      | seqNilV => simp [valueMatches] at hv
      | seqConsV a1 a2 => simp [valueMatches] at hv
  | stringType =>
      intro h a v _ hv _
      cases v with
      | strV s =>
          constructor
          · simp [readTree, writeTree, writeCell_self]
          · intro q hq
            simp only [writeTree, footprint, List.mem_singleton] at hq
            subst hq
            left
            simp only [inRegion, memory_size]
            omega
      | undefV => simp [valueMatches] at hv
      | primV x => simp [valueMatches] at hv
      | structNilV => simp [valueMatches] at hv
      | structConsV a1 a2 => simp [valueMatches] at hv
      | seqNilV => simp [valueMatches] at hv
      | seqConsV a1 a2 => simp [valueMatches] at hv
  | sequenceType c b ih =>
      intro h a v hwf hv hreg
      simp only [wfType] at hwf
      simp only [memory_size] at hreg
      simp only [valueMatches] at hv
      have hIH : ∀ (hh : Heap) (aa : Nat) (e : Value), valueMatches c e = true →
          aa + memory_size c ≤ hh.next →
          readTree c (writeTree c hh aa e).mem aa = e ∧
          (∀ q, q ∈ footprint c (writeTree c hh aa e).mem aa →
            inRegion c aa q ∨ (hh.next ≤ q ∧ q < (writeTree c hh aa e).next)) :=
        fun hh aa e hme hre => ih hh aa e hwf hme hre
      cases v with
      | undefV => simp [elemsMatch] at hv
      | primV x => simp [elemsMatch] at hv
      | strV s => simp [elemsMatch] at hv
      | structNilV => simp [elemsMatch] at hv
      | structConsV a1 a2 => simp [elemsMatch] at hv
      | seqNilV =>
          constructor
          · simp [writeTree, readTree, writeCell_self, chainLen, writeElems, readElems]
          · intro q hq
            simp only [writeTree, chainLen, writeElems, footprint, writeCell_self,
              footElems, List.mem_cons, List.not_mem_nil, or_false] at hq
            subst hq
            left
            simp only [inRegion, memory_size]
            omega
      | seqConsV e r =>
          have hblockreg : h.next + (0 + chainLen (Value.seqConsV e r)) * memory_size c
              ≤ h.next + chainLen (Value.seqConsV e r) * memory_size c := by
            have e1 : (0 + chainLen (Value.seqConsV e r)) * memory_size c
                = chainLen (Value.seqConsV e r) * memory_size c := by ring
            omega
          have hblock := writeElems_block c h.next hIH (Value.seqConsV e r) 0
            ⟨h.mem, h.next + chainLen (Value.seqConsV e r) * memory_size c⟩ hv hblockreg
          -- abbreviations
          have hmonoW : h.next + chainLen (Value.seqConsV e r) * memory_size c
              ≤ (writeElems (fun hh p e2 => writeTree c hh p e2) (memory_size c) h.next 0
                  ⟨h.mem, h.next + chainLen (Value.seqConsV e r) * memory_size c⟩
                  (Value.seqConsV e r)).next :=
            writeElemsW_mono (fun hh p e2 => writeTree c hh p e2) (memory_size c) h.next
              (fun hh q2 e2 => writeTree_next_mono c hh q2 e2) (Value.seqConsV e r) 0
              ⟨h.mem, h.next + chainLen (Value.seqConsV e r) * memory_size c⟩
          -- each element cell lies at or above the buffer base, hence differs from a
          have hslotbound : ∀ j q, j < chainLen (Value.seqConsV e r) →
              q ∈ footprint c
                (writeElems (fun hh p e2 => writeTree c hh p e2) (memory_size c) h.next 0
                  ⟨h.mem, h.next + chainLen (Value.seqConsV e r) * memory_size c⟩
                  (Value.seqConsV e r)).mem
                (h.next + (0 + j) * memory_size c) →
              h.next ≤ q ∧ q < (writeElems (fun hh p e2 => writeTree c hh p e2)
                  (memory_size c) h.next 0
                  ⟨h.mem, h.next + chainLen (Value.seqConsV e r) * memory_size c⟩
                  (Value.seqConsV e r)).next := by
            intro j q hjlt hq
            have hmul : (j + 1) * memory_size c
                ≤ chainLen (Value.seqConsV e r) * memory_size c :=
              Nat.mul_le_mul_right _ (by omega)
            have e1 : (0 + j) * memory_size c = j * memory_size c := by ring
            have e2 : (j + 1) * memory_size c = j * memory_size c + memory_size c := by ring
            have e3 : (⟨h.mem, h.next + chainLen (Value.seqConsV e r) * memory_size c⟩
                : Heap).next = h.next + chainLen (Value.seqConsV e r) * memory_size c := rfl
            rcases (hblock j hjlt).2 q hq with hq1 | hq1
            · constructor
              · omega
              · have : q < h.next + chainLen (Value.seqConsV e r) * memory_size c := by omega
                omega
            · rw [e3] at hq1
              exact ⟨by omega, hq1.2⟩
          -- the header write at a does not touch element cells (a < h.next ≤ those)
          have hapres : ∀ j, j < chainLen (Value.seqConsV e r) →
              ∀ q, q ∈ footprint c
                (writeElems (fun hh p e2 => writeTree c hh p e2) (memory_size c) h.next 0
                  ⟨h.mem, h.next + chainLen (Value.seqConsV e r) * memory_size c⟩
                  (Value.seqConsV e r)).mem
                (h.next + (0 + j) * memory_size c) →
              writeCell
                (writeElems (fun hh p e2 => writeTree c hh p e2) (memory_size c) h.next 0
                  ⟨h.mem, h.next + chainLen (Value.seqConsV e r) * memory_size c⟩
                  (Value.seqConsV e r)).mem a
                (Cell.seqCell h.next (chainLen (Value.seqConsV e r))) q
              = (writeElems (fun hh p e2 => writeTree c hh p e2) (memory_size c) h.next 0
                  ⟨h.mem, h.next + chainLen (Value.seqConsV e r) * memory_size c⟩
                  (Value.seqConsV e r)).mem q := by
            intro j hjlt q hq
            have hb := hslotbound j q hjlt hq
            exact writeCell_other _ _ _ _ (by omega)
          constructor
          · simp only [writeTree, readTree, writeCell_self]
            apply readElems_chain (fun p => readTree c
                (writeCell
                  (writeElems (fun hh p2 e2 => writeTree c hh p2 e2) (memory_size c) h.next 0
                    ⟨h.mem, h.next + chainLen (Value.seqConsV e r) * memory_size c⟩
                    (Value.seqConsV e r)).mem a
                  (Cell.seqCell h.next (chainLen (Value.seqConsV e r)))) p)
              (fun e2 => valueMatches c e2) (memory_size c) h.next (Value.seqConsV e r) 0 hv
            intro j hjlt
            rw [readTree_congr c
              (writeElems (fun hh p2 e2 => writeTree c hh p2 e2) (memory_size c) h.next 0
                ⟨h.mem, h.next + chainLen (Value.seqConsV e r) * memory_size c⟩
                (Value.seqConsV e r)).mem
              (writeCell
                (writeElems (fun hh p2 e2 => writeTree c hh p2 e2) (memory_size c) h.next 0
                  ⟨h.mem, h.next + chainLen (Value.seqConsV e r) * memory_size c⟩
                  (Value.seqConsV e r)).mem a
                (Cell.seqCell h.next (chainLen (Value.seqConsV e r))))
              (h.next + (0 + j) * memory_size c) (hapres j hjlt)]
            exact (hblock j hjlt).1
          · intro q hq
            simp only [writeTree, footprint, writeCell_self, List.mem_cons] at hq
            rcases hq with hq | hq
            · subst hq
              left
              simp only [inRegion, memory_size]
              omega
            · obtain ⟨j, hjlt, hjq⟩ := mem_footElems _ _ _ (chainLen (Value.seqConsV e r)) 0 q hq
              rw [footprint_congr c
                (writeElems (fun hh p2 e2 => writeTree c hh p2 e2) (memory_size c) h.next 0
                  ⟨h.mem, h.next + chainLen (Value.seqConsV e r) * memory_size c⟩
                  (Value.seqConsV e r)).mem
                (writeCell
                  (writeElems (fun hh p2 e2 => writeTree c hh p2 e2) (memory_size c) h.next 0
                    ⟨h.mem, h.next + chainLen (Value.seqConsV e r) * memory_size c⟩
                    (Value.seqConsV e r)).mem a
                  (Cell.seqCell h.next (chainLen (Value.seqConsV e r))))
                (h.next + (0 + j) * memory_size c) (hapres j hjlt)] at hjq
              right
              exact hslotbound j q hjlt hjq
  | memberNil =>
      intro h a v _ hv _
      cases v with
      | structNilV =>
          constructor
          · rfl
          · intro q hq
            simp [writeTree, footprint] at hq
      | undefV => simp [valueMatches] at hv
      | primV x => simp [valueMatches] at hv
      | strV s => simp [valueMatches] at hv
      | structConsV a1 a2 => simp [valueMatches] at hv
      | seqNilV => simp [valueMatches] at hv
      | seqConsV a1 a2 => simp [valueMatches] at hv
  | memberCons n off mt rest ih1 ih2 =>
      intro h a v hwf hv hreg
      simp only [wfType, Bool.and_eq_true] at hwf
      obtain ⟨⟨⟨hdj, hml⟩, hwmt⟩, hwrest⟩ := hwf
      cases v with
      | structConsV f vr =>
          simp only [valueMatches, Bool.and_eq_true] at hv
          have hsz := member_size_le n off mt rest
          have hreg1 : (a + off) + memory_size mt ≤ h.next := by omega
          obtain ⟨hrb1, hfp1⟩ := ih1 h (a + off) f hwmt hv.1 hreg1
          have hmono1 : h.next ≤ (writeTree mt h (a + off) f).next :=
            writeTree_next_mono mt h (a + off) f
          have hreg2 : a + memory_size rest ≤ (writeTree mt h (a + off) f).next := by omega
          obtain ⟨hrb2, hfp2⟩ := ih2 (writeTree mt h (a + off) f) a vr hwrest hv.2 hreg2
          have hpres : ∀ q, q ∈ footprint mt (writeTree mt h (a + off) f).mem (a + off) →
              (writeTree rest (writeTree mt h (a + off) f) a vr).mem q
                = (writeTree mt h (a + off) f).mem q := by
            intro q hq
            rcases hfp1 q hq with hq1 | hq1
            · simp only [inRegion] at hq1
              apply writeTree_frame rest (writeTree mt h (a + off) f) a vr q
                (lt_of_lt_of_le (by omega) hmono1)
              by_contra hcon
              rw [Bool.not_eq_false] at hcon
              exact chain_writes_disjoint rest hml hwrest off (memory_size mt) a q hdj hcon
                (by omega) (by omega)
            · apply writeTree_frame rest (writeTree mt h (a + off) f) a vr q hq1.2
              by_contra hcon
              rw [Bool.not_eq_false] at hcon
              have hr := inRegion_of_inWrites rest a q hcon
              simp only [inRegion] at hr
              omega
          constructor
          · simp only [writeTree, readTree]
            rw [readTree_congr mt (writeTree mt h (a + off) f).mem
                (writeTree rest (writeTree mt h (a + off) f) a vr).mem (a + off) hpres,
              hrb1, hrb2]
          · intro q hq
            simp only [writeTree, footprint, List.mem_append] at hq
            rcases hq with hq | hq
            · rw [footprint_congr mt (writeTree mt h (a + off) f).mem
                  (writeTree rest (writeTree mt h (a + off) f) a vr).mem (a + off) hpres] at hq
              rcases hfp1 q hq with hq1 | hq1
              · left
                simp only [inRegion] at hq1 ⊢
                omega
              · right
                exact ⟨hq1.1, lt_of_lt_of_le hq1.2
                  (writeTree_next_mono rest (writeTree mt h (a + off) f) a vr)⟩
            · rcases hfp2 q hq with hq1 | hq1
              · left
                simp only [inRegion] at hq1 ⊢
                omega
              · right
                exact ⟨le_trans hmono1 hq1.1, hq1.2⟩
      | undefV => simp [valueMatches] at hv
      | primV x => simp [valueMatches] at hv
      | strV s => simp [valueMatches] at hv
      | structNilV => simp [valueMatches] at hv
      | seqNilV => simp [valueMatches] at hv
      | seqConsV a1 a2 => simp [valueMatches] at hv

/-! ## C9: sequence append -/

lemma copyElemRange_mono (cp : Heap → Nat → Nat → Heap) (es bnew bold : Nat)
    (hmc : ∀ hh d s, hh.next ≤ (cp hh d s).next) :
    ∀ (k i : Nat) (hh : Heap), hh.next ≤ (copyElemRange cp es bnew bold i k hh).next := by
  intro k
  induction k with
  | zero => intro i hh; simp [copyElemRange]
  | succ k ih =>
      intro i hh
      simp only [copyElemRange]
      exact le_trans (hmc hh (bnew + i * es) (bold + i * es)) (ih (i + 1) _)

lemma push_instance_eq (c : DynamicType) (bound : Nat) (h : Heap) (a : Nat) (v : Value)
    (base len : Nat) (hm : h.mem a = Cell.seqCell base len) (hlt : len < bound) :
    push_instance c bound h a v
      = some (⟨writeCell (writeTree c
            (copyElemRange (fun hh d s => copy_instance c hh d s) (memory_size c) h.next base
              0 len ⟨h.mem, h.next + (len + 1) * memory_size c⟩)
            (h.next + len * memory_size c) v).mem a (Cell.seqCell h.next (len + 1)),
          (writeTree c
            (copyElemRange (fun hh d s => copy_instance c hh d s) (memory_size c) h.next base
              0 len ⟨h.mem, h.next + (len + 1) * memory_size c⟩)
            (h.next + len * memory_size c) v).next⟩,
        h.next + len * memory_size c) := by
  simp only [push_instance, hm]
  rw [if_pos hlt]

/-- C9: on a sequence-typed Write View whose `push` succeeds (the sequence is
below its bound), `size()` after the push is exactly `size()` before plus
one, and indexed addressing at the new last index yields a view whose
content is the pushed value. -/
theorem push_appends_one_element (h : Heap) (c : DynamicType) (bound a : Nat)
    (v : Value) (base len : Nat)
    (hm : h.mem a = Cell.seqCell base len)
    (hlt : len < bound)
    (ha : a < h.next)
    (hwf : wfType c = true)
    (hv : valueMatches c v = true) :
    (WritableDynamicDataRef.push h ⟨DynamicType.sequenceType c bound, a⟩ v).2 = true ∧
    ReadableDynamicDataRef.size
        (WritableDynamicDataRef.push h ⟨DynamicType.sequenceType c bound, a⟩ v).1.mem
        ⟨DynamicType.sequenceType c bound, a⟩
      = ReadableDynamicDataRef.size h.mem ⟨DynamicType.sequenceType c bound, a⟩ + 1 ∧
    readTree c
        (WritableDynamicDataRef.push h ⟨DynamicType.sequenceType c bound, a⟩ v).1.mem
        (ReadableDynamicDataRef.atIndex
          (WritableDynamicDataRef.push h ⟨DynamicType.sequenceType c bound, a⟩ v).1.mem
          ⟨DynamicType.sequenceType c bound, a⟩
          (ReadableDynamicDataRef.size h.mem ⟨DynamicType.sequenceType c bound, a⟩)).instance_
      = v := by
  have hpush : WritableDynamicDataRef.push h ⟨DynamicType.sequenceType c bound, a⟩ v
      = (⟨writeCell (writeTree c
            (copyElemRange (fun hh d s => copy_instance c hh d s) (memory_size c) h.next base
              0 len ⟨h.mem, h.next + (len + 1) * memory_size c⟩)
            (h.next + len * memory_size c) v).mem a (Cell.seqCell h.next (len + 1)),
          (writeTree c
            (copyElemRange (fun hh d s => copy_instance c hh d s) (memory_size c) h.next base
              0 len ⟨h.mem, h.next + (len + 1) * memory_size c⟩)
            (h.next + len * memory_size c) v).next⟩, true) := by
    simp only [WritableDynamicDataRef.push, push_instance_eq c bound h a v base len hm hlt]
  rw [hpush]
  have hH1next : (⟨h.mem, h.next + (len + 1) * memory_size c⟩ : Heap).next
      = h.next + (len + 1) * memory_size c := rfl
  have hmul : (len + 1) * memory_size c = len * memory_size c + memory_size c := by ring
  have hmono2 : (⟨h.mem, h.next + (len + 1) * memory_size c⟩ : Heap).next
      ≤ (copyElemRange (fun hh d s => copy_instance c hh d s) (memory_size c) h.next base
          0 len ⟨h.mem, h.next + (len + 1) * memory_size c⟩).next := by
    exact copyElemRange_mono (fun hh d s => copy_instance c hh d s) (memory_size c) h.next base
      (fun hh d s => writeTree_next_mono c hh d (readTree c hh.mem s)) len 0
      ⟨h.mem, h.next + (len + 1) * memory_size c⟩
  have hreg3 : (h.next + len * memory_size c) + memory_size c
      ≤ (copyElemRange (fun hh d s => copy_instance c hh d s) (memory_size c) h.next base
          0 len ⟨h.mem, h.next + (len + 1) * memory_size c⟩).next := by
    rw [hH1next] at hmono2
    omega
  have hspec := writeTree_spec c
    (copyElemRange (fun hh d s => copy_instance c hh d s) (memory_size c) h.next base
      0 len ⟨h.mem, h.next + (len + 1) * memory_size c⟩)
    (h.next + len * memory_size c) v hwf hv hreg3
  refine ⟨rfl, ?_, ?_⟩
  · simp only [ReadableDynamicDataRef.size, get_instance_size, writeCell_self, hm]
  · have hsz : ReadableDynamicDataRef.size h.mem ⟨DynamicType.sequenceType c bound, a⟩
        = len := by
      simp only [ReadableDynamicDataRef.size, get_instance_size, hm]
    rw [hsz]
    have hat : (ReadableDynamicDataRef.atIndex
          (writeCell (writeTree c
            (copyElemRange (fun hh d s => copy_instance c hh d s) (memory_size c) h.next base
              0 len ⟨h.mem, h.next + (len + 1) * memory_size c⟩)
            (h.next + len * memory_size c) v).mem a (Cell.seqCell h.next (len + 1)))
          ⟨DynamicType.sequenceType c bound, a⟩ len).instance_
        = h.next + len * memory_size c := by
      simp only [ReadableDynamicDataRef.atIndex, ReadableDynamicDataRef.instance_id,
        content_type, get_instance_at, writeCell_self]
    rw [hat]
    have hpres : ∀ q, q ∈ footprint c
        (writeTree c
          (copyElemRange (fun hh d s => copy_instance c hh d s) (memory_size c) h.next base
            0 len ⟨h.mem, h.next + (len + 1) * memory_size c⟩)
          (h.next + len * memory_size c) v).mem (h.next + len * memory_size c) →
        writeCell (writeTree c
          (copyElemRange (fun hh d s => copy_instance c hh d s) (memory_size c) h.next base
            0 len ⟨h.mem, h.next + (len + 1) * memory_size c⟩)
          (h.next + len * memory_size c) v).mem a (Cell.seqCell h.next (len + 1)) q
        = (writeTree c
          (copyElemRange (fun hh d s => copy_instance c hh d s) (memory_size c) h.next base
            0 len ⟨h.mem, h.next + (len + 1) * memory_size c⟩)
          (h.next + len * memory_size c) v).mem q := by
      intro q hq
      rcases hspec.2 q hq with hq1 | hq1
      · simp only [inRegion] at hq1
        exact writeCell_other _ _ _ _ (by omega)
      · rw [hH1next] at hmono2
        exact writeCell_other _ _ _ _ (by omega)
    rw [readTree_congr c
      (writeTree c
        (copyElemRange (fun hh d s => copy_instance c hh d s) (memory_size c) h.next base
          0 len ⟨h.mem, h.next + (len + 1) * memory_size c⟩)
        (h.next + len * memory_size c) v).mem
      (writeCell (writeTree c
        (copyElemRange (fun hh d s => copy_instance c hh d s) (memory_size c) h.next base
          0 len ⟨h.mem, h.next + (len + 1) * memory_size c⟩)
        (h.next + len * memory_size c) v).mem a (Cell.seqCell h.next (len + 1)))
      (h.next + len * memory_size c) hpres]
    exact hspec.1

theorem push_appends_one_element_witness :
    (WritableDynamicDataRef.push pushHeap
        ⟨DynamicType.sequenceType DynamicType.primitiveType 5, 0⟩ (Value.primV 7)).2 = true ∧
    ReadableDynamicDataRef.size
        (WritableDynamicDataRef.push pushHeap
          ⟨DynamicType.sequenceType DynamicType.primitiveType 5, 0⟩ (Value.primV 7)).1.mem
        ⟨DynamicType.sequenceType DynamicType.primitiveType 5, 0⟩
      = ReadableDynamicDataRef.size pushHeap.mem
          ⟨DynamicType.sequenceType DynamicType.primitiveType 5, 0⟩ + 1 ∧
    readTree DynamicType.primitiveType
        (WritableDynamicDataRef.push pushHeap
          ⟨DynamicType.sequenceType DynamicType.primitiveType 5, 0⟩ (Value.primV 7)).1.mem
        (ReadableDynamicDataRef.atIndex
          (WritableDynamicDataRef.push pushHeap
            ⟨DynamicType.sequenceType DynamicType.primitiveType 5, 0⟩ (Value.primV 7)).1.mem
          ⟨DynamicType.sequenceType DynamicType.primitiveType 5, 0⟩
          (ReadableDynamicDataRef.size pushHeap.mem
            ⟨DynamicType.sequenceType DynamicType.primitiveType 5, 0⟩)).instance_
      = Value.primV 7 :=
  push_appends_one_element pushHeap DynamicType.primitiveType 5 0 (Value.primV 7) 10 1
    (by decide) (by decide) (by decide) (by decide) (by decide)

/-! ## C4: deep-copy isolation -/

lemma copyElemRange_frame (cp : Heap → Nat → Nat → Heap) (es bnew bold p : Nat)
    (hmc : ∀ hh d s, hh.next ≤ (cp hh d s).next)
    (hfr : ∀ hh d s, p < hh.next → p < d → (cp hh d s).mem p = hh.mem p) :
    ∀ (k i : Nat) (hh : Heap), p < hh.next → p < bnew →
      (copyElemRange cp es bnew bold i k hh).mem p = hh.mem p := by
  intro k
  induction k with
  | zero => intro i hh _ _; simp [copyElemRange]
  | succ k ih =>
      intro i hh hlt hbn
      simp only [copyElemRange]
      rw [ih (i + 1) (cp hh (bnew + i * es) (bold + i * es))
            (lt_of_lt_of_le hlt (hmc hh _ _)) hbn]
      exact hfr hh (bnew + i * es) (bold + i * es) hlt (by omega)

lemma push_frame (h : Heap) (c : DynamicType) (bound aa : Nat) (v : Value) (p : Nat)
    (hp : p < h.next) (hpa : p ≠ aa) :
    ((WritableDynamicDataRef.push h ⟨DynamicType.sequenceType c bound, aa⟩ v).1).mem p
      = h.mem p := by
  cases hm : h.mem aa with
  | seqCell base len =>
      by_cases hlt : len < bound
      · have hpush : WritableDynamicDataRef.push h ⟨DynamicType.sequenceType c bound, aa⟩ v
            = (⟨writeCell (writeTree c
                  (copyElemRange (fun hh d s => copy_instance c hh d s) (memory_size c) h.next
                    base 0 len ⟨h.mem, h.next + (len + 1) * memory_size c⟩)
                  (h.next + len * memory_size c) v).mem aa (Cell.seqCell h.next (len + 1)),
                (writeTree c
                  (copyElemRange (fun hh d s => copy_instance c hh d s) (memory_size c) h.next
                    base 0 len ⟨h.mem, h.next + (len + 1) * memory_size c⟩)
                  (h.next + len * memory_size c) v).next⟩, true) := by
          simp only [WritableDynamicDataRef.push,
            push_instance_eq c bound h aa v base len hm hlt]
        rw [hpush]
        have hH1next : (⟨h.mem, h.next + (len + 1) * memory_size c⟩ : Heap).next
            = h.next + (len + 1) * memory_size c := rfl
        have hmono2 := copyElemRange_mono (fun hh d s => copy_instance c hh d s)
          (memory_size c) h.next base
          (fun hh d s => writeTree_next_mono c hh d (readTree c hh.mem s)) len 0
          ⟨h.mem, h.next + (len + 1) * memory_size c⟩
        rw [hH1next] at hmono2
        dsimp only
        rw [writeCell_other _ _ _ _ hpa]
        rw [writeTree_frame_slot c p
              (copyElemRange (fun hh d s => copy_instance c hh d s) (memory_size c) h.next
                base 0 len ⟨h.mem, h.next + (len + 1) * memory_size c⟩)
              (h.next + len * memory_size c) v (by omega) (Or.inl (by omega))]
        exact copyElemRange_frame (fun hh d s => copy_instance c hh d s) (memory_size c)
          h.next base p
          (fun hh d s => writeTree_next_mono c hh d (readTree c hh.mem s))
          (fun hh d s hph hpd =>
            writeTree_frame_slot c p hh d (readTree c hh.mem s) hph (Or.inl hpd))
          len 0 ⟨h.mem, h.next + (len + 1) * memory_size c⟩ (by omega) hp
      · simp only [WritableDynamicDataRef.push, push_instance, hm]
        rw [if_neg hlt]
  | undef => simp [WritableDynamicDataRef.push, push_instance, hm]
  | primCell x => simp [WritableDynamicDataRef.push, push_instance, hm]
  | strCell s => simp [WritableDynamicDataRef.push, push_instance, hm]

/-- C4: for every Owning Value (any type, in particular structures
containing sequences), copy construction allocates a fresh buffer whose
region does not alias the source's region and copies the content across
through the descriptor's copy operation (the copy holds exactly the source's
content); a subsequent sequence `push` applied anywhere inside the copy's
freshly allocated storage — its root view or any nested sequence sub-view,
whose addresses all lie at or beyond the old allocation frontier — leaves
the source's content unchanged. -/
theorem copy_isolated_fresh_buffer (h : Heap) (t : DynamicType) (a : Nat) (x : Value)
    (hwf : wfType t = true)
    (hfp : ∀ q, q ∈ footprint t h.mem a → q < h.next)
    (hreg : a + memory_size t ≤ h.next)
    (hmv : valueMatches t (readTree t h.mem a) = true) :
    (∀ p, inRegion t (DynamicData.copyCtor h t a).2 p → ¬ inRegion t a p) ∧
    readTree t (DynamicData.copyCtor h t a).1.mem (DynamicData.copyCtor h t a).2
      = readTree t h.mem a ∧
    (∀ (c2 : DynamicType) (bound2 aa : Nat), h.next ≤ aa →
      readTree t (WritableDynamicDataRef.push (DynamicData.copyCtor h t a).1
          ⟨DynamicType.sequenceType c2 bound2, aa⟩ x).1.mem a
        = readTree t h.mem a) := by
  have hc2 : (DynamicData.copyCtor h t a).2 = h.next := rfl
  have hc1 : (DynamicData.copyCtor h t a).1
      = writeTree t ⟨h.mem, h.next + memory_size t⟩ h.next (readTree t h.mem a) := rfl
  have hWnext : (⟨h.mem, h.next + memory_size t⟩ : Heap).next
      = h.next + memory_size t := rfl
  have hspec := writeTree_spec t ⟨h.mem, h.next + memory_size t⟩ h.next
    (readTree t h.mem a) hwf hmv (le_refl _)
  -- the copy's writes never touch the source's cells
  have hbpres : ∀ q, q ∈ footprint t h.mem a →
      (DynamicData.copyCtor h t a).1.mem q = h.mem q := by
    intro q hq
    have hqlt := hfp q hq
    rw [hc1]
    apply writeTree_frame t ⟨h.mem, h.next + memory_size t⟩ h.next
      (readTree t h.mem a) q (by rw [hWnext]; omega)
    by_contra hcon
    rw [Bool.not_eq_false] at hcon
    have hr := inRegion_of_inWrites t h.next q hcon
    simp only [inRegion] at hr
    omega
  refine ⟨?_, ?_, ?_⟩
  · intro p hp1 hp2
    rw [hc2] at hp1
    simp only [inRegion] at hp1 hp2
    omega
  · rw [hc1, hc2]
    exact hspec.1
  · intro c2 bound2 aa haa
    have hA : readTree t (DynamicData.copyCtor h t a).1.mem a = readTree t h.mem a :=
      readTree_congr t h.mem (DynamicData.copyCtor h t a).1.mem a hbpres
    have hB : footprint t (DynamicData.copyCtor h t a).1.mem a = footprint t h.mem a :=
      footprint_congr t h.mem (DynamicData.copyCtor h t a).1.mem a hbpres
    have hbnext : h.next ≤ (DynamicData.copyCtor h t a).1.next := by
      rw [hc1]
      refine le_trans ?_ (writeTree_next_mono t ⟨h.mem, h.next + memory_size t⟩ h.next
        (readTree t h.mem a))
      rw [hWnext]
      omega
    have hD : ∀ q, q ∈ footprint t (DynamicData.copyCtor h t a).1.mem a →
        (WritableDynamicDataRef.push (DynamicData.copyCtor h t a).1
          ⟨DynamicType.sequenceType c2 bound2, aa⟩ x).1.mem q
        = (DynamicData.copyCtor h t a).1.mem q := by
      intro q hq
      rw [hB] at hq
      have hqlt := hfp q hq
      exact push_frame (DynamicData.copyCtor h t a).1 c2 bound2 aa x q
        (lt_of_lt_of_le hqlt hbnext) (by omega)
    have hE := readTree_congr t (DynamicData.copyCtor h t a).1.mem
      (WritableDynamicDataRef.push (DynamicData.copyCtor h t a).1
        ⟨DynamicType.sequenceType c2 bound2, aa⟩ x).1.mem a hD
    rw [hE]
    exact hA

/-- The C4 witness scenario: a structure containing a one-element primitive
sequence, copied, then pushed on the copy's member sequence (which sits at
the copy's address 11 = the old allocation frontier). -/
theorem copy_isolated_fresh_buffer_witness :
    (∀ p, inRegion structSeqType (DynamicData.copyCtor pushHeap structSeqType 0).2 p →
      ¬ inRegion structSeqType 0 p) ∧
    readTree structSeqType (DynamicData.copyCtor pushHeap structSeqType 0).1.mem
        (DynamicData.copyCtor pushHeap structSeqType 0).2
      = readTree structSeqType pushHeap.mem 0 ∧
    readTree structSeqType
        (WritableDynamicDataRef.push (DynamicData.copyCtor pushHeap structSeqType 0).1
          ⟨DynamicType.sequenceType DynamicType.primitiveType 5, 11⟩ (Value.primV 9)).1.mem 0
      = readTree structSeqType pushHeap.mem 0 :=
  ⟨(copy_isolated_fresh_buffer pushHeap structSeqType 0 (Value.primV 9)
      (by decide) (by decide) (by decide) (by decide)).1,
   (copy_isolated_fresh_buffer pushHeap structSeqType 0 (Value.primV 9)
      (by decide) (by decide) (by decide) (by decide)).2.1,
   (copy_isolated_fresh_buffer pushHeap structSeqType 0 (Value.primV 9)
      (by decide) (by decide) (by decide) (by decide)).2.2
     DynamicType.primitiveType 5 11 (by decide)⟩

/-! ## C5: move independence -/

lemma construct_frame :
    ∀ (t : DynamicType) (m : Mem) (a p : Nat), inWritesB t a p = false →
      construct_instance t m a p = m p := by
  intro t
  induction t with
  | primitiveType =>
      intro m a p hw
      simp only [inWritesB, beq_eq_false_iff_ne, ne_eq] at hw
      exact writeCell_other _ _ _ _ hw
  | stringType =>
      intro m a p hw
      simp only [inWritesB, beq_eq_false_iff_ne, ne_eq] at hw
      exact writeCell_other _ _ _ _ hw
  | sequenceType c b ih =>
      intro m a p hw
      simp only [inWritesB, beq_eq_false_iff_ne, ne_eq] at hw
      exact writeCell_other _ _ _ _ hw
  | memberNil => intro m a p _; rfl
  | memberCons n off mt rest ih1 ih2 =>
      intro m a p hw
      simp only [inWritesB, Bool.or_eq_false_iff] at hw
      simp only [construct_instance]
      rw [ih2 (construct_instance mt m (a + off)) a p hw.2, ih1 m (a + off) p hw.1]

lemma containedB_congr :
    ∀ (t : DynamicType) (m m2 : Mem) (a : Nat),
      (∀ q, inWritesB t a q = true → m2 q = m q) →
      containedB t m2 a = containedB t m a := by
  intro t
  induction t with
  | primitiveType => intro m m2 a _; rfl
  | stringType => intro m m2 a _; rfl
  | sequenceType c b ih =>
      intro m m2 a hq
      have ha : m2 a = m a := hq a (by simp [inWritesB])
      simp only [containedB, ha]
  | memberNil => intro m m2 a _; rfl
  | memberCons n off mt rest ih1 ih2 =>
      intro m m2 a hq
      simp only [containedB]
      rw [ih1 m m2 (a + off)
            (fun q hw => hq q (by simp only [inWritesB, Bool.or_eq_true]; exact Or.inl hw)),
          ih2 m m2 a
            (fun q hw => hq q (by simp only [inWritesB, Bool.or_eq_true]; exact Or.inr hw))]

lemma construct_contained :
    ∀ (t : DynamicType) (m : Mem) (a : Nat), wfType t = true →
      containedB t (construct_instance t m a) a = true := by
  intro t
  induction t with
  | primitiveType => intro m a _; rfl
  | stringType => intro m a _; rfl
  | sequenceType c b ih =>
      intro m a _
      simp [containedB, construct_instance, writeCell_self]
  | memberNil => intro m a _; rfl
  | memberCons n off mt rest ih1 ih2 =>
      intro m a hwf
      simp only [wfType, Bool.and_eq_true] at hwf
      obtain ⟨⟨⟨hdj, hml⟩, hwmt⟩, hwrest⟩ := hwf
      simp only [construct_instance, containedB, Bool.and_eq_true]
      constructor
      · have hstep : ∀ q, inWritesB mt (a + off) q = true →
            construct_instance rest (construct_instance mt m (a + off)) a q
              = construct_instance mt m (a + off) q := by
          intro q hw
          apply construct_frame rest (construct_instance mt m (a + off)) a q
          by_contra hcon
          rw [Bool.not_eq_false] at hcon
          have hr := inRegion_of_inWrites mt (a + off) q hw
          simp only [inRegion] at hr
          exact chain_writes_disjoint rest hml hwrest off (memory_size mt) a q hdj hcon
            (by omega) (by omega)
        rw [containedB_congr mt (construct_instance mt m (a + off))
          (construct_instance rest (construct_instance mt m (a + off)) a) (a + off) hstep]
        exact ih1 m (a + off) hwmt
      · exact ih2 (construct_instance mt m (a + off)) a hwrest

lemma contained_footprint :
    ∀ (t : DynamicType) (m : Mem) (a : Nat), containedB t m a = true →
      ∀ q, q ∈ footprint t m a → inWritesB t a q = true := by
  intro t
  induction t with
  | primitiveType =>
      intro m a _ q hq
      simp only [footprint, List.mem_singleton] at hq
      subst hq
      simp [inWritesB]
  | stringType =>
      intro m a _ q hq
      simp only [footprint, List.mem_singleton] at hq
      subst hq
      simp [inWritesB]
  | sequenceType c b ih =>
      intro m a hc q hq
      cases hm : m a with
      | seqCell base len =>
          simp only [containedB, hm] at hc
          have hlen : len = 0 := by simpa using hc
          subst hlen
          simp only [footprint, hm, footElems, List.mem_cons, List.not_mem_nil, or_false] at hq
          subst hq
          simp [inWritesB]
      | undef =>
          simp only [footprint, hm, List.mem_cons, List.not_mem_nil, or_false] at hq
          subst hq
          simp [inWritesB]
      | primCell x =>
          simp only [footprint, hm, List.mem_cons, List.not_mem_nil, or_false] at hq
          subst hq
          simp [inWritesB]
      | strCell s =>
          simp only [footprint, hm, List.mem_cons, List.not_mem_nil, or_false] at hq
          subst hq
          simp [inWritesB]
  | memberNil =>
      intro m a _ q hq
      simp [footprint] at hq
  | memberCons n off mt rest ih1 ih2 =>
      intro m a hc q hq
      simp only [containedB, Bool.and_eq_true] at hc
      simp only [footprint, List.mem_append] at hq
      simp only [inWritesB, Bool.or_eq_true]
      rcases hq with hq | hq
      · exact Or.inl (ih1 m (a + off) hc.1 q hq)
      · exact Or.inr (ih2 m a hc.2 q hq)

lemma destroy_frame_contained :
    ∀ (t : DynamicType) (m : Mem) (a p : Nat), wfType t = true →
      containedB t m a = true → inWritesB t a p = false →
      destroy_instance t m a p = m p := by
  intro t
  induction t with
  | primitiveType => intro m a p _ _ _; rfl
  | stringType =>
      intro m a p _ _ hw
      simp only [inWritesB, beq_eq_false_iff_ne, ne_eq] at hw
      exact writeCell_other _ _ _ _ hw
  | sequenceType c b ih =>
      intro m a p _ hc hw
      simp only [inWritesB, beq_eq_false_iff_ne, ne_eq] at hw
      cases hm : m a with
      | seqCell base len =>
          simp only [containedB, hm] at hc
          have hlen : len = 0 := by simpa using hc
          subst hlen
          simp only [destroy_instance, hm, destroyElems]
          exact writeCell_other _ _ _ _ hw
      | undef =>
          simp only [destroy_instance, hm]
          exact writeCell_other _ _ _ _ hw
      | primCell x =>
          simp only [destroy_instance, hm]
          exact writeCell_other _ _ _ _ hw
      | strCell s =>
          simp only [destroy_instance, hm]
          exact writeCell_other _ _ _ _ hw
  | memberNil => intro m a p _ _ _; rfl
  | memberCons n off mt rest ih1 ih2 =>
      intro m a p hwf hc hw
      simp only [wfType, Bool.and_eq_true] at hwf
      obtain ⟨⟨⟨hdj, hml⟩, hwmt⟩, hwrest⟩ := hwf
      simp only [containedB, Bool.and_eq_true] at hc
      simp only [inWritesB, Bool.or_eq_false_iff] at hw
      simp only [destroy_instance]
      have hstep : ∀ q, inWritesB rest a q = true →
          destroy_instance mt m (a + off) q = m q := by
        intro q hwq
        apply ih1 m (a + off) q hwmt hc.1
        by_contra hcon
        rw [Bool.not_eq_false] at hcon
        have hr := inRegion_of_inWrites mt (a + off) q hcon
        simp only [inRegion] at hr
        exact chain_writes_disjoint rest hml hwrest off (memory_size mt) a q hdj hwq
          (by omega) (by omega)
      have hcrest : containedB rest (destroy_instance mt m (a + off)) a = true := by
        rw [containedB_congr rest m (destroy_instance mt m (a + off)) a hstep]
        exact hc.2
      rw [ih2 (destroy_instance mt m (a + off)) a p hwrest hcrest hw.2]
      exact ih1 m (a + off) p hwmt hc.1 hw.1

/-- C5: move-constructing an Owning Value allocates a fresh buffer whose
region does not alias the source's region; afterwards the new value holds
the source's original content, the moved-from value's content occupies no
cell of the new value's content (no shared state), and destroying the
moved-from value leaves the new value's content unchanged (it remains
independently destructible without freeing shared state). -/
theorem move_independence (h : Heap) (t : DynamicType) (a : Nat)
    (hwf : wfType t = true)
    (hreg : a + memory_size t ≤ h.next)
    (hmv : valueMatches t (readTree t h.mem a) = true) :
    (∀ p, inRegion t (DynamicData.moveCtor h t a).2 p → ¬ inRegion t a p) ∧
    readTree t (DynamicData.moveCtor h t a).1.mem (DynamicData.moveCtor h t a).2
      = readTree t h.mem a ∧
    (∀ p, p ∈ footprint t (DynamicData.moveCtor h t a).1.mem a →
      ¬ p ∈ footprint t (DynamicData.moveCtor h t a).1.mem (DynamicData.moveCtor h t a).2) ∧
    readTree t (DynamicData.destruct (DynamicData.moveCtor h t a).1 t a).mem
        (DynamicData.moveCtor h t a).2
      = readTree t (DynamicData.moveCtor h t a).1.mem (DynamicData.moveCtor h t a).2 := by
  have hb2 : (DynamicData.moveCtor h t a).2 = h.next := rfl
  have hbmem : (DynamicData.moveCtor h t a).1.mem
      = construct_instance t (writeTree t ⟨h.mem, h.next + memory_size t⟩ h.next
          (readTree t h.mem a)).mem a := rfl
  have hdmem : (DynamicData.destruct (DynamicData.moveCtor h t a).1 t a).mem
      = destroy_instance t (DynamicData.moveCtor h t a).1.mem a := rfl
  have hWnext : (⟨h.mem, h.next + memory_size t⟩ : Heap).next = h.next + memory_size t := rfl
  have hspec := writeTree_spec t ⟨h.mem, h.next + memory_size t⟩ h.next
    (readTree t h.mem a) hwf hmv (le_refl _)
  have F1 : ∀ q, q ∈ footprint t
      (writeTree t ⟨h.mem, h.next + memory_size t⟩ h.next (readTree t h.mem a)).mem h.next →
      construct_instance t (writeTree t ⟨h.mem, h.next + memory_size t⟩ h.next
        (readTree t h.mem a)).mem a q
      = (writeTree t ⟨h.mem, h.next + memory_size t⟩ h.next (readTree t h.mem a)).mem q := by
    intro q hq
    apply construct_frame t _ a q
    by_contra hcon
    rw [Bool.not_eq_false] at hcon
    have hr := inRegion_of_inWrites t a q hcon
    simp only [inRegion] at hr
    rcases hspec.2 q hq with hq1 | hq1
    · simp only [inRegion] at hq1
      omega
    · rw [hWnext] at hq1
      omega
  have hfpb : footprint t (DynamicData.moveCtor h t a).1.mem h.next
      = footprint t (writeTree t ⟨h.mem, h.next + memory_size t⟩ h.next
          (readTree t h.mem a)).mem h.next := by
    rw [hbmem]
    exact footprint_congr t
      (writeTree t ⟨h.mem, h.next + memory_size t⟩ h.next (readTree t h.mem a)).mem
      (construct_instance t (writeTree t ⟨h.mem, h.next + memory_size t⟩ h.next
        (readTree t h.mem a)).mem a) h.next F1
  have hcont : containedB t (DynamicData.moveCtor h t a).1.mem a = true := by
    rw [hbmem]
    exact construct_contained t
      (writeTree t ⟨h.mem, h.next + memory_size t⟩ h.next (readTree t h.mem a)).mem a hwf
  refine ⟨?_, ?_, ?_, ?_⟩
  · intro p hp1 hp2
    rw [hb2] at hp1
    simp only [inRegion] at hp1 hp2
    omega
  · rw [hb2, hbmem]
    rw [readTree_congr t
      (writeTree t ⟨h.mem, h.next + memory_size t⟩ h.next (readTree t h.mem a)).mem
      (construct_instance t (writeTree t ⟨h.mem, h.next + memory_size t⟩ h.next
        (readTree t h.mem a)).mem a) h.next F1]
    exact hspec.1
  · intro p hpa hpb
    have hin := contained_footprint t (DynamicData.moveCtor h t a).1.mem a hcont p hpa
    have hr := inRegion_of_inWrites t a p hin
    simp only [inRegion] at hr
    rw [hb2, hfpb] at hpb
    rcases hspec.2 p hpb with hq1 | hq1
    · simp only [inRegion] at hq1
      omega
    · rw [hWnext] at hq1
      omega
  · rw [hb2, hdmem]
    have F2 : ∀ q, q ∈ footprint t (DynamicData.moveCtor h t a).1.mem h.next →
        destroy_instance t (DynamicData.moveCtor h t a).1.mem a q
          = (DynamicData.moveCtor h t a).1.mem q := by
      intro q hq
      apply destroy_frame_contained t (DynamicData.moveCtor h t a).1.mem a q hwf hcont
      by_contra hcon
      rw [Bool.not_eq_false] at hcon
      have hr := inRegion_of_inWrites t a q hcon
      simp only [inRegion] at hr
      rw [hfpb] at hq
      rcases hspec.2 q hq with hq1 | hq1
      · simp only [inRegion] at hq1
        omega
      · rw [hWnext] at hq1
        omega
    exact readTree_congr t (DynamicData.moveCtor h t a).1.mem
      (destroy_instance t (DynamicData.moveCtor h t a).1.mem a) h.next F2

/-- The C5 witness scenario: moving the one-element primitive sequence of
`pushHeap`, then destroying the moved-from value. -/
theorem move_independence_witness :
    (∀ p, inRegion (DynamicType.sequenceType DynamicType.primitiveType 5)
        (DynamicData.moveCtor pushHeap
          (DynamicType.sequenceType DynamicType.primitiveType 5) 0).2 p →
      ¬ inRegion (DynamicType.sequenceType DynamicType.primitiveType 5) 0 p) ∧
    readTree (DynamicType.sequenceType DynamicType.primitiveType 5)
        (DynamicData.moveCtor pushHeap
          (DynamicType.sequenceType DynamicType.primitiveType 5) 0).1.mem
        (DynamicData.moveCtor pushHeap
          (DynamicType.sequenceType DynamicType.primitiveType 5) 0).2
      = readTree (DynamicType.sequenceType DynamicType.primitiveType 5) pushHeap.mem 0 ∧
    (∀ p, p ∈ footprint (DynamicType.sequenceType DynamicType.primitiveType 5)
        (DynamicData.moveCtor pushHeap
          (DynamicType.sequenceType DynamicType.primitiveType 5) 0).1.mem 0 →
      ¬ p ∈ footprint (DynamicType.sequenceType DynamicType.primitiveType 5)
        (DynamicData.moveCtor pushHeap
          (DynamicType.sequenceType DynamicType.primitiveType 5) 0).1.mem
        (DynamicData.moveCtor pushHeap
          (DynamicType.sequenceType DynamicType.primitiveType 5) 0).2) ∧
    readTree (DynamicType.sequenceType DynamicType.primitiveType 5)
        (DynamicData.destruct
          (DynamicData.moveCtor pushHeap
            (DynamicType.sequenceType DynamicType.primitiveType 5) 0).1
          (DynamicType.sequenceType DynamicType.primitiveType 5) 0).mem
        (DynamicData.moveCtor pushHeap
          (DynamicType.sequenceType DynamicType.primitiveType 5) 0).2
      = readTree (DynamicType.sequenceType DynamicType.primitiveType 5)
          (DynamicData.moveCtor pushHeap
            (DynamicType.sequenceType DynamicType.primitiveType 5) 0).1.mem
          (DynamicData.moveCtor pushHeap
            (DynamicType.sequenceType DynamicType.primitiveType 5) 0).2 :=
  move_independence pushHeap (DynamicType.sequenceType DynamicType.primitiveType 5) 0
    (by decide) (by decide) (by decide)
